import Mathlib

/-!
Plandex CLI filesystem core (`cli/lib/fs.go`).

A shallow embedding of the functions of `cli/lib/fs.go` and of the Go library
routines they rely on (`path/filepath.Clean`, `Join`, `Dir`, `Walk`), followed by
the properties proved about them.

Strings are Go strings; the path separator is `/` (Unix).  The operating system is
an explicit parameter of every function that touches it: a probe function for
`os.Stat`, a tree for what `filepath.Walk` and `os.ReadDir` find on disk, and so on.
-/

namespace Plandex

/-! ## `path/filepath` (Unix) -/

/-- The test `os.IsPathSeparator(c)` on Unix. -/
def isPathSeparator (c : Char) : Bool := c == '/'

/-- The inner loop of `Clean` on a `..` element, after the first `out.w--`:
`for out.w > dotdot && !os.IsPathSeparator(out.index(out.w)) { out.w-- }`.
The argument is the current `out.w`, the result the final one. -/
def backtrackLoop (buf : List Char) (dotdot : Nat) : Nat → Nat
  | 0 => 0
  | w + 1 =>
    if w + 1 > dotdot && !isPathSeparator (buf.getD (w + 1) '/') then backtrackLoop buf dotdot w
    else w + 1

/-- The main loop `for r < n { switch ... }` of `filepath.Clean`.  The second list is
`path[r:]`, the third the contents `out[0:out.w]` of the output buffer.  The first
argument bounds the number of iterations; every iteration consumes at least one byte
of the path, so `len(path)` iterations are enough. -/
def cleanLoop (rooted : Bool) : Nat → List Char → List Char → Nat → List Char
  | 0, _, out, _ => out
  | fuel + 1, path, out, dotdot =>
    match path with
    | [] => out
    | c :: rest =>
      if isPathSeparator c then
        -- empty path element
        cleanLoop rooted fuel rest out dotdot
      else if c == '.' && (rest.isEmpty || isPathSeparator (rest.headD '/')) then
        -- . element
        cleanLoop rooted fuel rest out dotdot
      else if c == '.' && rest.headD '/' == '.'
          && (rest.tail.isEmpty || isPathSeparator (rest.tail.headD '/')) then
        -- .. element: remove to last separator
        if out.length > dotdot then
          cleanLoop rooted fuel rest.tail
            (out.take (backtrackLoop out dotdot (out.length - 1))) dotdot
        else if !rooted then
          let out1 := if out.length > 0 then out ++ ['/'] else out
          cleanLoop rooted fuel rest.tail (out1 ++ ['.', '.']) (out1.length + 2)
        else
          cleanLoop rooted fuel rest.tail out dotdot
      else
        -- real path element: add slash if needed, then copy the element
        let out1 :=
          if (rooted && out.length != 1) || (!rooted && out.length != 0) then out ++ ['/']
          else out
        cleanLoop rooted fuel ((c :: rest).dropWhile (fun x => !isPathSeparator x))
          (out1 ++ (c :: rest).takeWhile (fun x => !isPathSeparator x)) dotdot

/-- The function `filepath.Clean` on the bytes of a path. -/
def cleanChars (path : List Char) : List Char :=
  match path with
  | [] => ['.']
  | c :: rest =>
    let out :=
      if isPathSeparator c then cleanLoop true path.length rest ['/'] 1
      else cleanLoop false path.length path [] 0
    if out.length == 0 then ['.'] else out

/-- The function `filepath.Clean`. -/
def Clean (path : String) : String := String.mk (cleanChars path.data)

/-- The function `filepath.Join` for two elements: empty elements are ignored and the
result is cleaned; the join of only empty elements is the empty string. -/
def Join (a b : String) : String :=
  if a != "" then Clean (a ++ "/" ++ b)
  else if b != "" then Clean b
  else ""

/-- The loop of `filepath.Dir` looking for the last separator:
`i := len(path) - 1; for i >= 0 && !os.IsPathSeparator(path[i]) { i-- }`.
The argument and the result are `i + 1`. -/
def dirLoop (path : List Char) : Nat → Nat
  | 0 => 0
  | i + 1 => if !isPathSeparator (path.getD i '/') then dirLoop path i else i + 1

/-- The function `filepath.Dir`: `Clean(path[:i+1])` for the last separator index `i`. -/
def Dir (path : String) : String :=
  String.mk (cleanChars (path.data.take (dirLoop path.data path.data.length)))

/-! ## `os.Stat` -/

/-- What `os.Stat` answers, as far as its callers look at it. -/
inductive StatResult where
  /-- The call succeeded (`err == nil`). -/
  | ok
  /-- The call failed with an error for which `os.IsNotExist` holds. -/
  | notExist
  /-- The call failed with another error (permission denied, ...). -/
  | otherErr (msg : String)
deriving DecidableEq, Repr

/-- The test `os.IsNotExist(err)` on the error of a `StatResult`. -/
def osIsNotExist : StatResult → Bool
  | .notExist => true
  | _ => false

/-! ## `findPlandex` -/

/-- The loop of `findPlandex`, started at `searchPath`.  `stat` is `os.Stat`.  The
result carries, besides the two returned strings, the list of the paths handed to
`os.Stat`, in order.  The result is `none` when the iteration bound is used up before
the loop exits. -/
def findPlandexLoop (stat : String → StatResult) :
    Nat → String → List String → Option ((String × String) × List String)
  | 0, _, _ => none
  | fuel + 1, searchPath, probed =>
    if searchPath != "/" then
      let dir := Join searchPath ".plandex"
      if !osIsNotExist (stat dir) then some ((dir, searchPath), probed ++ [dir])
      else findPlandexLoop stat fuel (Dir searchPath) (probed ++ [dir])
    else some (("", ""), probed)

/-- The function `findPlandex`, with the global `Cwd` as a parameter. -/
def findPlandex (stat : String → StatResult) (Cwd : String) :
    Option ((String × String) × List String) :=
  findPlandexLoop stat Cwd.length Cwd []

/-- The working directory and its ancestors strictly below `/`, nearest first:
`Cwd`, `Dir Cwd`, `Dir (Dir Cwd)`, ... up to but excluding `/`.  The list stops
after `n` elements. -/
def ancestorsBelowRoot : Nat → String → List String
  | 0, _ => []
  | n + 1, p => if p = "/" then [] else p :: ancestorsBelowRoot n (Dir p)

/-- The test the loop of `findPlandex` makes on the directory `d`:
`!os.IsNotExist(err)` for the error of `os.Stat` on `d/.plandex`.  It holds when the
entry is found and also when the probe fails with an error other than not-exist. -/
def notMissing (stat : String → StatResult) (d : String) : Bool :=
  !osIsNotExist (stat (Join d ".plandex"))


/-! ## Clean absolute paths as lists of elements -/

/-- Whether `name` can be the name of a directory entry: not empty, without a
separator, and neither `.` nor `..`. -/
def validName (name : String) : Prop :=
  name.data ≠ [] ∧ (∀ c ∈ name.data, isPathSeparator c = false)
    ∧ name.data ≠ ['.'] ∧ name.data ≠ ['.', '.']

/-- The characters `/e1/e2/.../en` of the elements `e1 ... en`. -/
def joinElems : List String → List Char
  | [] => []
  | e :: es => '/' :: (e.data ++ joinElems es)

/-- The clean absolute path with the given elements: `/` for none, else
`/e1/e2/.../en`. -/
def absPath (elems : List String) : String :=
  String.mk (if elems = [] then ['/'] else joinElems elems)

/-! ## Process-wide state and the operating system -/

/-- The package-level variables of `fs.go`. -/
structure Globals where
  Cwd : String
  PlandexDir : String
  ProjectRoot : String
  HomePlandexDir : String
  CacheDir : String
  CurrentPlanName : String
  CurrentPlanDir : String
  ResultsSubdir : String
  DescriptionsSubdir : String
  ConversationSubdir : String
  ContextSubdir : String
deriving DecidableEq, Repr

/-- The values the package-level variables have before `init` runs. -/
def zeroGlobals : Globals :=
  { Cwd := "", PlandexDir := "", ProjectRoot := "", HomePlandexDir := "", CacheDir := "",
    CurrentPlanName := "", CurrentPlanDir := "", ResultsSubdir := "",
    DescriptionsSubdir := "", ConversationSubdir := "", ContextSubdir := "" }

/-- An entry of a directory listing (`os.DirEntry`), as far as it is looked at. -/
structure DirEntry where
  Name : String
  IsDir : Bool
deriving DecidableEq, Repr

/-- The operating-system calls used by the plan functions.  An error is represented
by its message; file contents are strings of bytes. -/
structure OS where
  /-- The call `os.Stat`. -/
  stat : String → StatResult
  /-- The call `os.ReadFile`. -/
  readFile : String → Except String String
  /-- The call `os.ReadDir`. -/
  readDir : String → Except String (List DirEntry)
  /-- The call `os.Mkdir`: `none` is success. -/
  mkdir : String → Option String

/-- Modelled from the spec: the record `types.PlanSettings` decoded from
`current_plan.json`, whose declaration is not part of this file; the only field read
here is the plan name (`{ "name": string }`). -/
structure PlanSettings where
  Name : String
deriving DecidableEq, Repr

/-! ## `LoadCurrentPlan` and `FindOrCreatePlandex` -/

/-- The function `LoadCurrentPlan`.  `unmarshal` is `json.Unmarshal` into a
`types.PlanSettings`.  The result is the returned error (`none` for `nil`) and the
package-level variables after the call. -/
def LoadCurrentPlan (os : OS) (unmarshal : String → Except String PlanSettings)
    (g : Globals) : Option String × Globals :=
  let path := Join g.PlandexDir "current_plan.json"
  if osIsNotExist (os.stat path) then (none, g)
  else
    match os.readFile path with
    | .error err => (some ("error reading current_plan.json: " ++ err), g)
    | .ok fileBytes =>
      match unmarshal fileBytes with
      | .error err => (some ("error unmarshalling current_plan.json: " ++ err), g)
      | .ok planSettings =>
        let g1 := { g with CurrentPlanName := planSettings.Name }
        let g2 := { g1 with CurrentPlanDir := Join g1.PlandexDir g1.CurrentPlanName }
        let g3 := { g2 with ResultsSubdir := Join g2.CurrentPlanDir "results" }
        let g4 := { g3 with DescriptionsSubdir := Join g3.CurrentPlanDir "descriptions" }
        let g5 := { g4 with ConversationSubdir := Join g4.CurrentPlanDir "conversation" }
        let g6 := { g5 with ContextSubdir := Join g5.CurrentPlanDir "context" }
        (none, g6)

/-- The function `FindOrCreatePlandex`.  The result is the returned triple (directory,
created, error) and the package-level variables after the call. -/
def FindOrCreatePlandex (os : OS) (g : Globals) :
    (String × Bool × Option String) × Globals :=
  let dir := Join g.Cwd ".plandex"
  match os.stat dir with
  | .ok => ((dir, false, none), g)
  | .notExist =>
    match os.mkdir dir with
    | some err => (("", false, some err), g)
    | none => ((dir, true, none), { g with PlandexDir := dir })
  | .otherErr err => (("", false, some err), g)

/-- The assignment `PlandexDir, ProjectRoot = findPlandex()` made by `init`, on the
variables as they are before `init` runs, `Cwd` being set to what `os.Getwd` gave.
The result is `none` when `findPlandex` does not return. -/
def initLocate (os : OS) (cwd : String) : Option Globals :=
  match findPlandex os.stat cwd with
  | none => none
  | some ((plandexDir, projectRoot), _) =>
    some { zeroGlobals with Cwd := cwd, PlandexDir := plandexDir, ProjectRoot := projectRoot }

/-- The function `init`, as far as the plan state goes: the goroutine that runs
`findPlandex` and then `LoadCurrentPlan`.  (The other goroutine sets `HomePlandexDir`
and `CacheDir` and prepares the cache directory; nothing here reads them.)  The result
is `none` when `findPlandex` does not return; otherwise the error `init` panics with, if
any, and the package-level variables. -/
def init (os : OS) (unmarshal : String → Except String PlanSettings) (cwd : String) :
    Option (Option String × Globals) :=
  (initLocate os cwd).map (LoadCurrentPlan os unmarshal)

/-- A call made after startup. -/
inductive Call where
  | loadCurrentPlan
  | findOrCreatePlandex
deriving DecidableEq, Repr

/-- The package-level variables together with a record of what has happened:
`loadedFrom` is the value `PlandexDir` had at the latest `LoadCurrentPlan` that loaded
a plan (`none` if none did), `createdSince` whether `FindOrCreatePlandex` has created
the control directory since then. -/
structure Session where
  g : Globals
  loadedFrom : Option String
  createdSince : Bool
deriving DecidableEq, Repr

/-- Whether `LoadCurrentPlan` gets as far as setting the plan: the file is there, can
be read and can be decoded. -/
def loadsPlan (os : OS) (unmarshal : String → Except String PlanSettings) (g : Globals) :
    Bool :=
  !osIsNotExist (os.stat (Join g.PlandexDir "current_plan.json"))
    && (match os.readFile (Join g.PlandexDir "current_plan.json") with
        | .error _ => false
        | .ok fileBytes =>
          match unmarshal fileBytes with
          | .error _ => false
          | .ok _ => true)

/-- One call made in a session, against the operating system as it is at that time. -/
def Session.call (os : OS) (unmarshal : String → Except String PlanSettings) :
    Call → Session → Session
  | .loadCurrentPlan, s =>
    if loadsPlan os unmarshal s.g then
      { g := (LoadCurrentPlan os unmarshal s.g).2, loadedFrom := some s.g.PlandexDir,
        createdSince := false }
    else { s with g := (LoadCurrentPlan os unmarshal s.g).2 }
  | .findOrCreatePlandex, s =>
    { s with
      g := (FindOrCreatePlandex os s.g).2
      createdSince := s.createdSince || (FindOrCreatePlandex os s.g).1.2.1 }

/-- The session right after an `init` that returned without a panic. -/
def Session.startup (os : OS) (unmarshal : String → Except String PlanSettings)
    (cwd : String) : Option Session :=
  match initLocate os cwd with
  | none => none
  | some g0 =>
    match LoadCurrentPlan os unmarshal g0 with
    | (some _, _) => none
    | (none, g) =>
      some { g := g
             loadedFrom := if loadsPlan os unmarshal g0 then some g0.PlandexDir else none
             createdSince := false }

/-- The sessions reachable from a startup by any sequence of calls; the operating
system may answer differently at every call. -/
inductive Reachable (unmarshal : String → Except String PlanSettings) : Session → Prop where
  | startup (os : OS) (cwd : String) (s : Session) :
      Session.startup os unmarshal cwd = some s → Reachable unmarshal s
  | call (os : OS) (c : Call) (s : Session) :
      Reachable unmarshal s → Reachable unmarshal (Session.call os unmarshal c s)

/-- The derived plan paths computed from the control directory `d` and the current plan
name: `d/Name` and below it `results`, `descriptions`, `conversation`, `context`. -/
def DerivedFrom (d : String) (g : Globals) : Prop :=
  g.CurrentPlanDir = Join d g.CurrentPlanName
    ∧ g.ResultsSubdir = Join (Join d g.CurrentPlanName) "results"
    ∧ g.DescriptionsSubdir = Join (Join d g.CurrentPlanName) "descriptions"
    ∧ g.ConversationSubdir = Join (Join d g.CurrentPlanName) "conversation"
    ∧ g.ContextSubdir = Join (Join d g.CurrentPlanName) "context"

instance (d : String) (g : Globals) : Decidable (DerivedFrom d g) := by
  unfold DerivedFrom; infer_instance

/-! ## `GetLatestPlanDescription` -/

/-- What a call gives: a value, a returned error, or a run-time panic. -/
inductive Outcome (α : Type) where
  | ok (a : α)
  | error (msg : String)
  | panic (msg : String)
deriving DecidableEq, Repr

/-- Go's `<` on strings, on the character lists: the first position where the two
differ decides, and a proper initial segment is smaller.  (Go compares bytes; on
UTF-8 text that is the order of the code points compared here.) -/
def bytesLess : List Char → List Char → Bool
  | _, [] => false
  | [], _ :: _ => true
  | a :: as, b :: bs =>
    if a.toNat < b.toNat then true
    else if b.toNat < a.toNat then false
    else bytesLess as bs

/-- Go's `a > b` on strings. -/
def stringGreater (a b : String) : Bool := bytesLess b.data a.data

/-- The selection loop of `GetLatestPlanDescription`:
`for _, entry := range entries { if latestFile == nil || entry.Name() > latestFile.Name()
{ latestFile = entry } }`.  The second argument is `latestFile` (`none` for `nil`). -/
def latestLoop : List DirEntry → Option DirEntry → Option DirEntry
  | [], latestFile => latestFile
  | entry :: rest, none => latestLoop rest (some entry)
  | entry :: rest, some latestFile =>
    latestLoop rest
      (if stringGreater entry.Name latestFile.Name then some entry else some latestFile)

/-- The function `GetLatestPlanDescription`.  `unmarshal` is `json.Unmarshal` into a
`shared.PlanDescription`, a record declared elsewhere.  Calling `Name()` on the nil
`latestFile` is a nil dereference, which panics. -/
def GetLatestPlanDescription {PlanDescription : Type} (os : OS)
    (unmarshal : String → Except String PlanDescription) (g : Globals) :
    Outcome PlanDescription :=
  match os.readDir g.DescriptionsSubdir with
  | .error err => .error err
  | .ok entries =>
    match latestLoop entries none with
    | none => .panic "runtime error: invalid memory address or nil pointer dereference"
    | some latestFile =>
      match os.readFile (Join g.DescriptionsSubdir latestFile.Name) with
      | .error err => .error ("error reading latest description file: " ++ err)
      | .ok bytes =>
        match unmarshal bytes with
        | .error err => .error ("error unmarshalling latest description file: " ++ err)
        | .ok description => .ok description

/-! ## Concrete situations used below -/

/-- A project whose control directory `/a/.plandex` selects the plan `p`; nothing else
exists, and directories can be created. -/
def projectOS : OS :=
  { stat := fun p =>
      if p = "/a/.plandex" ∨ p = "/a/.plandex/current_plan.json" then .ok else .notExist
    readFile := fun p =>
      if p = "/a/.plandex/current_plan.json" then .ok "\x7b\"name\": \"p\"\x7d"
      else .error "open: no such file or directory"
    readDir := fun _ => .error "open: no such file or directory"
    mkdir := fun _ => none }

/-- A decoder for `current_plan.json` that knows the one document of `projectOS`. -/
def projectUnmarshal (fileBytes : String) : Except String PlanSettings :=
  if fileBytes = "\x7b\"name\": \"p\"\x7d" then .ok { Name := "p" }
  else .error "unexpected end of JSON input"

/-- The session started in `/a/b` of `projectOS`. -/
def projectSession : Session :=
  { g := { zeroGlobals with
           Cwd := "/a/b", PlandexDir := "/a/.plandex", ProjectRoot := "/a",
           CurrentPlanName := "p", CurrentPlanDir := "/a/.plandex/p",
           ResultsSubdir := "/a/.plandex/p/results",
           DescriptionsSubdir := "/a/.plandex/p/descriptions",
           ConversationSubdir := "/a/.plandex/p/conversation",
           ContextSubdir := "/a/.plandex/p/context" }
    loadedFrom := some "/a/.plandex"
    createdSince := false }

/-- A descriptions directory `descriptions` holding the given names, listed in the
given order; the content of every file is its own name. -/
def descriptionsOS (names : List String) : OS :=
  { stat := fun _ => .ok
    readFile := fun p => .ok p
    readDir := fun _ => .ok (names.map (fun n => { Name := n, IsDir := false }))
    mkdir := fun _ => none }

/-! ## `filepath.Walk` and `ParseInputPaths` -/

/-- What `filepath.Walk` finds at a path: the entry itself as `os.Lstat` reports it and,
for a directory, what `readDirNames` lists in it (in the order `Walk` visits it, which
is sorted by name).  The name is `info.Name()`. -/
inductive Node where
  /-- Anything that is not a directory. -/
  | file (name : String)
  /-- A directory whose listing can be read. -/
  | dir (name : String) (children : List Node)
  /-- A directory whose listing fails with the error `err`. -/
  | unreadableDir (name : String) (err : String)
  /-- A path on which `os.Lstat` fails with `err` (a missing root, for instance). -/
  | lstatFail (name : String) (err : String)

/-- The name of an entry, as listed by its parent. -/
def Node.name : Node → String
  | .file n => n
  | .dir n _ => n
  | .unreadableDir n _ => n
  | .lstatFail n _ => n

/-- The test `info.IsDir()`. -/
def Node.isDir : Node → Bool
  | .dir _ _ => true
  | .unreadableDir _ _ => true
  | _ => false

/-- The part of `os.FileInfo` the callback looks at. -/
structure FileInfo where
  Name : String
  IsDir : Bool
deriving DecidableEq, Repr, Inhabited

/-- Modelled from the spec: the record `types.LoadContextParams`, declared outside this
file; the two options read by `ParseInputPaths` are `Recursive` (descending into
directories is allowed) and `NamesOnly` (directory paths are collected as well). -/
structure LoadContextParams where
  Recursive : Bool
  NamesOnly : Bool
deriving DecidableEq, Repr

/-- A non-nil value returned by a `WalkFunc`: the sentinel `filepath.SkipDir` or an
error, given by its message. -/
inductive WalkErr where
  | skipDir
  | err (msg : String)
deriving DecidableEq, Repr

/-- The variables shared by the goroutines of `ParseInputPaths`, guarded by `mu`. -/
structure Shared where
  firstErr : Option String
  resPaths : List String
deriving DecidableEq, Repr

/-- The callback handed to `filepath.Walk` in `ParseInputPaths`.  `err` is the error
`Walk` passes in (`none` for `nil`); when it is non-nil `info` is not looked at.  The
body after `mu.Lock()` runs under the mutex. -/
def walkFn (params : LoadContextParams) (path : String) (info : FileInfo)
    (err : Option String) (s : Shared) : Option WalkErr × Shared :=
  match err with
  | some e => (some (.err e), s)
  | none =>
    match s.firstErr with
    | some e => (some (.err e), s)
    | none =>
      if info.IsDir then
        if info.Name == ".git" || info.Name == ".plandex" then (some .skipDir, s)
        else if !(params.Recursive || params.NamesOnly) then
          (some (.err ("cannot process directory " ++ path
            ++ ": --recursive or --tree flag not set")), s)
        else if params.NamesOnly then (none, { s with resPaths := s.resPaths ++ [path] })
        else (none, s)
      else (none, { s with resPaths := s.resPaths ++ [path] })

/-- The call of the callback that `Walk` makes on reaching `n` at `path`: for a
directory `readDirNames` has already run and its error, if any, is passed in; for a
path that cannot be inspected the `Lstat` error is passed in and `info` is nil. -/
def visit (params : LoadContextParams) (path : String) (n : Node) (s : Shared) :
    Option WalkErr × Shared :=
  match n with
  | .file name => walkFn params path { Name := name, IsDir := false } none s
  | .dir name _ => walkFn params path { Name := name, IsDir := true } none s
  | .unreadableDir name e => walkFn params path { Name := name, IsDir := true } (some e) s
  | .lstatFail _ e => walkFn params path default (some e) s

/-- The entries of a directory with their paths, as the loop of `walk` builds them:
`filename := Join(path, name)`. -/
def childFrame (path : String) (children : List Node) : List (String × Node) :=
  children.map (fun c => (Join path c.name, c))

/-- A goroutine of `ParseInputPaths`.  While it is inside `filepath.Walk` its state is
the stack of the directories being listed, each with the entries still to visit
(innermost first); then `Walk` has returned `err`; then the goroutine has recorded the
error and called `wg.Done()`. -/
inductive Thread where
  | walking (stack : List (List (String × Node)))
  | returned (err : Option String)
  | done (err : Option String)

/-- Whether the goroutine has finished. -/
def Thread.isDone : Thread → Bool
  | .done _ => true
  | _ => false

/-- One step of a goroutine against the shared variables.  A step inside `Walk` is
either one call of the callback followed by what `walk` does with its result, or the
return from a directory whose entries are all visited.  `SkipDir` from a directory
skips that directory, `SkipDir` from anything else skips the rest of the directory it
is in, and at the root both count as `nil`.  The last step is
`if err != nil { mu.Lock(); if firstErr == nil { firstErr = err }; mu.Unlock() }`. -/
def stepThread (params : LoadContextParams) : Thread → Shared → Thread × Shared
  | .walking [], s => (.returned none, s)
  | .walking ([] :: rest), s => (.walking rest, s)
  | .walking (((path, n) :: more) :: rest), s =>
    match visit params path n s with
    | (some (.err e), s1) => (.returned (some e), s1)
    | (some .skipDir, s1) =>
      if n.isDir || (match n with | .lstatFail _ _ => true | _ => false) then
        (.walking (more :: rest), s1)
      else (.walking rest, s1)
    | (none, s1) =>
      match n with
      | .dir _ children => (.walking (childFrame path children :: more :: rest), s1)
      | _ => (.walking (more :: rest), s1)
  | .returned err, s =>
    (.done err,
      match err with
      | some e => if s.firstErr = none then { s with firstErr := some e } else s
      | none => s)
  | .done err, s => (.done err, s)

/-- The goroutines and the variables they share. -/
structure State where
  threads : List Thread
  shared : Shared

/-- The goroutine number `i` makes one step (nothing happens when there is none). -/
def step (params : LoadContextParams) (i : Nat) (st : State) : State :=
  match st.threads[i]? with
  | none => st
  | some t =>
    { threads := st.threads.set i (stepThread params t st.shared).1
      shared := (stepThread params t st.shared).2 }

/-- The goroutines run in the order given by the schedule. -/
def run (params : LoadContextParams) (sched : List Nat) (st : State) : State :=
  sched.foldl (fun st i => step params i st) st

/-- The state after the `for` loop of `ParseInputPaths` has started one goroutine per
path: each is about to call `filepath.Walk(p, ...)`; `fs p` is what is at `p`. -/
def startState (fs : String → Node) (fileOrDirPaths : List String) : State :=
  { threads := fileOrDirPaths.map (fun p => .walking [[(p, fs p)]])
    shared := { firstErr := none, resPaths := [] } }

/-- The function `ParseInputPaths` under the interleaving `sched` of its goroutines.
`wg.Wait()` returns once every goroutine is done; the result is `none` when the
schedule ends before that.  The pair is the returned slice (`none` for `nil`) and the
returned error (`none` for `nil`). -/
def ParseInputPaths (fs : String → Node) (fileOrDirPaths : List String)
    (params : LoadContextParams) (sched : List Nat) :
    Option (Option (List String) × Option String) :=
  let st := run params sched (startState fs fileOrDirPaths)
  if st.threads.all Thread.isDone then
    match st.shared.firstErr with
    | some e => some (none, some e)
    | none => some (some st.shared.resPaths, none)
  else none

/-- The walk of one goroutine taken by itself, with `firstErr` nil throughout: the
result of `walk(path, info, walkFn)` on `n` and the paths it records, in order. -/
def walkAlone (params : LoadContextParams) (path : String) : Node → Option WalkErr × List String
  | .file name =>
    ((visit params path (.file name) ⟨none, []⟩).1,
      (visit params path (.file name) ⟨none, []⟩).2.resPaths)
  | .dir name children =>
    match (visit params path (.dir name children) ⟨none, []⟩).1 with
    | some e => (some e, (visit params path (.dir name children) ⟨none, []⟩).2.resPaths)
    | none =>
      ((walkAloneList params path children).1,
        (visit params path (.dir name children) ⟨none, []⟩).2.resPaths
          ++ (walkAloneList params path children).2)
  | .unreadableDir name e =>
    ((visit params path (.unreadableDir name e) ⟨none, []⟩).1, [])
  | .lstatFail name e =>
    ((visit params path (.lstatFail name e) ⟨none, []⟩).1, [])
where
  /-- The loop of `walk` over the entries of the directory `path`. -/
  walkAloneList (params : LoadContextParams) (path : String) :
      List Node → Option WalkErr × List String
    | [] => (none, [])
    | c :: cs =>
      match (walkAlone params (Join path c.name) c).1 with
      | some (.err e) => (some (.err e), (walkAlone params (Join path c.name) c).2)
      | some .skipDir =>
        if c.isDir || (match c with | .lstatFail _ _ => true | _ => false) then
          ((walkAloneList params path cs).1,
            (walkAlone params (Join path c.name) c).2 ++ (walkAloneList params path cs).2)
        else (some .skipDir, (walkAlone params (Join path c.name) c).2)
      | none =>
        ((walkAloneList params path cs).1,
          (walkAlone params (Join path c.name) c).2 ++ (walkAloneList params path cs).2)

/-- The rest of a directory loop of `walk`, taken by itself: the entries still to visit
with their paths. -/
def walkAloneFrame (params : LoadContextParams) :
    List (String × Node) → Option WalkErr × List String
  | [] => (none, [])
  | (p, n) :: more =>
    match (walkAlone params p n).1 with
    | some (.err e) => (some (.err e), (walkAlone params p n).2)
    | some .skipDir =>
      if n.isDir || (match n with | .lstatFail _ _ => true | _ => false) then
        ((walkAloneFrame params more).1,
          (walkAlone params p n).2 ++ (walkAloneFrame params more).2)
      else (some .skipDir, (walkAlone params p n).2)
    | none =>
      ((walkAloneFrame params more).1,
        (walkAlone params p n).2 ++ (walkAloneFrame params more).2)

/-- The rest of a whole `filepath.Walk`, taken by itself, from the stack of directory
loops still open: the error `Walk` returns (`none` for `nil`) and the paths recorded on
the way. -/
def walkAloneStack (params : LoadContextParams) :
    List (List (String × Node)) → Option String × List String
  | [] => (none, [])
  | frame :: rest =>
    match (walkAloneFrame params frame).1 with
    | some (.err e) => (some e, (walkAloneFrame params frame).2)
    | _ =>
      ((walkAloneStack params rest).1,
        (walkAloneFrame params frame).2 ++ (walkAloneStack params rest).2)

/-- The error with which the walk of a goroutine ends when no other goroutine sets
`firstErr` before it is through (`none`: it ends without error). -/
def Thread.outcome (params : LoadContextParams) : Thread → Option String
  | .walking stack => (walkAloneStack params stack).1
  | .returned e => e
  | .done e => e

/-- The paths a goroutine still records when no other goroutine sets `firstErr`. -/
def Thread.pending (params : LoadContextParams) : Thread → List String
  | .walking stack => (walkAloneStack params stack).2
  | _ => []

/-- The walk of the root `p` taken by itself: the error `filepath.Walk(p, ...)` returns
and the paths it records. -/
def WalkAlone (fs : String → Node) (params : LoadContextParams) (p : String) :
    Option String × List String :=
  walkAloneStack params [[(p, fs p)]]

/-- An entry of a directory tree: its path, its name, whether it is a directory, and
whether it lies inside a directory named `.git` or `.plandex`. -/
structure Entry where
  path : String
  name : String
  isDir : Bool
  insideSkipped : Bool
deriving DecidableEq, Repr

/-- The names of the directories that are never entered. -/
def isSkipName (name : String) : Bool := name == ".git" || name == ".plandex"

/-- All entries of the tree `n` found at `path`, the root included, parents before
children; `inside` tells whether the root already lies inside a skipped directory. -/
def Node.entries (path : String) (inside : Bool) : Node → List Entry
  | .file name => [{ path := path, name := name, isDir := false, insideSkipped := inside }]
  | .dir name children =>
    { path := path, name := name, isDir := true, insideSkipped := inside }
      :: entriesList path (inside || isSkipName name) children
  | .unreadableDir name _ =>
    [{ path := path, name := name, isDir := true, insideSkipped := inside }]
  | .lstatFail _ _ => []
where
  /-- The entries of the trees listed in the directory `path`. -/
  entriesList (path : String) (inside : Bool) : List Node → List Entry
    | [] => []
    | c :: cs => Node.entries (Join path c.name) inside c ++ entriesList path inside cs

/-- Whether an entry belongs to the result: it is outside every skipped directory and
is either not a directory or, when directory names are asked for, a directory that is
not itself named `.git` or `.plandex`. -/
def Entry.included (params : LoadContextParams) (e : Entry) : Bool :=
  !e.insideSkipped && (!e.isDir || (params.NamesOnly && !isSkipName e.name))

/-- Whether every entry the walk reaches can be inspected and every directory it
reaches can be listed.  The walk reaches the root and the entries of every directory
it reaches that is not named `.git` or `.plandex`; a directory so named is itself
reached (and listed, before the callback is called on it), its entries are not. -/
def Node.walkable : Node → Bool
  | .file _ => true
  | .dir name children => isSkipName name || walkableList children
  | .unreadableDir _ _ => false
  | .lstatFail _ _ => false
where
  /-- Whether all trees of a list are walkable. -/
  walkableList : List Node → Bool
    | [] => true
    | c :: cs => Node.walkable c && walkableList cs

/-- A bound on the number of steps a walk takes on a tree. -/
def Node.size : Node → Nat
  | .file _ => 1
  | .dir _ children => 2 + sizeList children
  | .unreadableDir _ _ => 1
  | .lstatFail _ _ => 1
where
  /-- The sizes of the trees of a list, added up. -/
  sizeList : List Node → Nat
    | [] => 0
    | c :: cs => Node.size c + sizeList cs

/-- A bound on the number of steps a goroutine still makes. -/
def Thread.measure : Thread → Nat
  | .walking stack => 2 + (stack.map (fun frame => 1 + (frame.map (fun x => x.2.size)).sum)).sum
  | .returned _ => 1
  | .done _ => 0

/-- Two regular files and a repository directory in a project directory `proj`. -/
def sampleTree : Node :=
  .dir "proj" [.file "a.go", .dir ".git" [.file "HEAD"], .dir "sub" [.file "b.go"]]

/-- A filesystem with `sampleTree` at `proj` (and so its file at `proj/a.go`), a file
at `f`, a directory named `.git` at `.git`, and nothing anywhere else. -/
def sampleFS (p : String) : Node :=
  if p = "proj" then sampleTree
  else if p = "proj/a.go" then .file "a.go"
  else if p = "f" then .file "f"
  else if p = ".git" then .dir ".git" [.file "HEAD"]
  else .lstatFail p "lstat: no such file or directory"

/-- What holds of the goroutines and the shared variables in every state `st` reached
from the state `st0`: the goroutines are the same in number; `firstErr`, once set, is
the error with which the walk of a finished goroutine ended, and as long as it is nil
no finished walk ended with an error; a walk that ends with an error when taken by
itself still does; and as long as `firstErr` is nil every walk proceeds as if taken by
itself, the paths recorded so far and those still to come making up what the walks
record by themselves; and `firstErr`, once set, is the error with which one of the
walks ends when taken by itself. -/
def Inv (params : LoadContextParams) (st0 st : State) : Prop :=
  st.threads.length = st0.threads.length
    ∧ (∀ e : String, st.shared.firstErr = some e →
        ∃ j : Nat, st.threads[j]? = some (Thread.done (some e)))
    ∧ (st.shared.firstErr = none →
        ∀ (j : Nat) (e : String), st.threads[j]? ≠ some (Thread.done (some e)))
    ∧ (∀ (j : Nat) (t0 t : Thread), st0.threads[j]? = some t0 → st.threads[j]? = some t →
        (t0.outcome params).isSome = true → (t.outcome params).isSome = true)
    ∧ (st.shared.firstErr = none →
        (st.shared.resPaths ++ st.threads.flatMap (Thread.pending params)).Perm
            (st0.shared.resPaths ++ st0.threads.flatMap (Thread.pending params))
          ∧ ∀ (j : Nat) (t0 t : Thread), st0.threads[j]? = some t0 → st.threads[j]? = some t →
              t.outcome params = t0.outcome params)
    ∧ (∀ e : String, st.shared.firstErr = some e → st0.shared.firstErr = none →
        ∃ (j : Nat) (t0 : Thread), st0.threads[j]? = some t0 ∧ t0.outcome params = some e)

/-! ## `CopyFile` and `CopyDir` -/

/-- What `CopyDir` finds in the source tree: `os.ReadDir` lists the entries of a
directory (sorted by name), `entry.IsDir()` tells directories from the rest, and
`os.Open` with `io.Copy` reads a file.  The source tree is a value of its own: writing
to the destination does not change it (the destination does not overlap the source). -/
inductive SrcNode where
  /-- A file that can be opened and read: its bytes. -/
  | file (name : String) (content : String)
  /-- A non-directory entry on which `os.Open` fails with `err`. -/
  | unopenable (name : String) (err : String)
  /-- A non-directory entry that opens, but `io.Copy` fails with `err` after the bytes
  `written` have gone to the destination. -/
  | truncated (name : String) (written : String) (err : String)
  /-- A directory that `os.ReadDir` can list. -/
  | dir (name : String) (children : List SrcNode)
  /-- A directory on which `os.ReadDir` fails with `err`. -/
  | unreadableDir (name : String) (err : String)

/-- The name `entry.Name()`. -/
def SrcNode.name : SrcNode → String
  | .file n _ => n
  | .unopenable n _ => n
  | .truncated n _ _ => n
  | .dir n _ => n
  | .unreadableDir n _ => n

/-- The test `entry.IsDir()`. -/
def SrcNode.isDir : SrcNode → Bool
  | .dir _ _ => true
  | .unreadableDir _ _ => true
  | _ => false

/-- An entry of the destination filesystem. -/
inductive DstEntry where
  | dir
  | file (content : String)
deriving DecidableEq, Repr

/-- The destination filesystem: what is at each path, a path being the list of its
elements from the root (`absPath` gives the string).  On such paths
`filepath.Join(dir, name)` is `dir ++ [name]` and `filepath.Dir(path)` is
`path.dropLast` (`Join_absPath` and `Dir_absPath` below).  Writing fails only where the
kinds of entries forbid it; permissions and space are not modelled. -/
abbrev DstFS := List String → Option DstEntry

/-- The filesystem with `entry` at `path`. -/
def DstFS.set (fs : DstFS) (path : List String) (entry : DstEntry) : DstFS :=
  fun q => if q = path then some entry else fs q

/-- The call `os.Mkdir(path)`: the path must be free and its parent a directory. -/
def osMkdir (fs : DstFS) (path : List String) : Option String × DstFS :=
  match fs path with
  | some _ => (some "mkdir: file exists", fs)
  | none =>
    match fs path.dropLast with
    | some .dir => (none, fs.set path .dir)
    | some (.file _) => (some "mkdir: not a directory", fs)
    | none => (some "mkdir: no such file or directory", fs)

/-- The call `os.MkdirAll(path[:n])`, for the first `n` elements of `path`: if the
path is a directory nothing is done, if it is something else the call fails; otherwise
the parent is made first and then the directory itself.  The root always is a
directory. -/
def mkdirAllUpTo (path : List String) : Nat → DstFS → Option String × DstFS
  | 0, fs => (none, fs)
  | n + 1, fs =>
    match fs (path.take (n + 1)) with
    | some .dir => (none, fs)
    | some (.file _) => (some "mkdir: not a directory", fs)
    | none =>
      match mkdirAllUpTo path n fs with
      | (some err, fs1) => (some err, fs1)
      | (none, fs1) => osMkdir fs1 (path.take (n + 1))

/-- The call `os.MkdirAll(path, os.ModePerm)`. -/
def osMkdirAll (fs : DstFS) (path : List String) : Option String × DstFS :=
  mkdirAllUpTo path path.length fs

/-- The call `os.Create(path)`: the file is created or truncated; this fails on a
directory and when the parent is not a directory. -/
def osCreate (fs : DstFS) (path : List String) : Option String × DstFS :=
  match fs path with
  | some .dir => (some "open: is a directory", fs)
  | _ =>
    match fs path.dropLast with
    | some .dir => (none, fs.set path (.file ""))
    | some (.file _) => (some "open: not a directory", fs)
    | none => (some "open: no such file or directory", fs)

/-- The function `CopyFile(src, dst)`; `src` is what is at the source path.  The
result is the returned error and the destination filesystem after the call. -/
def CopyFile (src : SrcNode) (dst : List String) (fs : DstFS) : Option String × DstFS :=
  match src with
  | .unopenable _ err => (some err, fs)
  | .unreadableDir _ err => (some err, fs)
  | .dir _ _ =>
    -- a directory opens, but reading from it fails
    match osMkdirAll fs dst.dropLast with
    | (some err1, fs1) => (some err1, fs1)
    | (none, fs1) =>
      match osCreate fs1 dst with
      | (some err2, fs2) => (some err2, fs2)
      | (none, fs2) => (some "read: is a directory", fs2)
  | .file _ content =>
    match osMkdirAll fs dst.dropLast with
    | (some err, fs1) => (some err, fs1)
    | (none, fs1) =>
      match osCreate fs1 dst with
      | (some err, fs2) => (some err, fs2)
      | (none, fs2) => (none, fs2.set dst (.file content))
  | .truncated _ written err =>
    match osMkdirAll fs dst.dropLast with
    | (some err1, fs1) => (some err1, fs1)
    | (none, fs1) =>
      match osCreate fs1 dst with
      | (some err2, fs2) => (some err2, fs2)
      | (none, fs2) => (some err, fs2.set dst (.file written))

/-- The function `CopyDir(srcDir, dstDir)`; `src` is what is at `srcDir`.  The result is
the returned error and the destination filesystem after the call (on an error, with
what had been copied until then). -/
def CopyDir (src : SrcNode) (dstDir : List String) (fs : DstFS) : Option String × DstFS :=
  match src with
  | .dir _ entries => copyEntries entries dstDir fs
  | .unreadableDir _ err => (some err, fs)
  | .file _ _ => (some "readdir: not a directory", fs)
  | .unopenable _ _ => (some "readdir: not a directory", fs)
  | .truncated _ _ _ => (some "readdir: not a directory", fs)
where
  /-- The loop `for _, entry := range entries` of `CopyDir`. -/
  copyEntries (entries : List SrcNode) (dstDir : List String) (fs : DstFS) :
      Option String × DstFS :=
    match entries with
    | [] => (none, fs)
    | entry :: rest =>
      match (if entry.isDir then CopyDir entry (dstDir ++ [entry.name]) fs
             else CopyFile entry (dstDir ++ [entry.name]) fs) with
      | (some err, fs1) => (some err, fs1)
      | (none, fs1) => copyEntries rest dstDir fs1

/-- The files below the source directory `src`, each with its path relative to `src`
and its bytes, in the order `CopyDir` meets them. -/
def srcFiles : SrcNode → List (List String × String)
  | .dir _ entries => srcFilesList entries
  | _ => []
where
  /-- The files of the entries of a directory, with the entry names in front. -/
  srcFilesList : List SrcNode → List (List String × String)
    | [] => []
    | .file name content :: rest => ([name], content) :: srcFilesList rest
    | .dir name entries :: rest =>
      (srcFilesList entries).map (fun x => (name :: x.1, x.2)) ++ srcFilesList rest
    | _ :: rest => srcFilesList rest

/-- Whether nothing in the source tree fails to be listed, opened or read. -/
def SrcNode.sound : SrcNode → Bool
  | .file _ _ => true
  | .dir _ entries => soundList entries
  | _ => false
where
  /-- Whether all trees of a list are sound. -/
  soundList : List SrcNode → Bool
    | [] => true
    | c :: cs => SrcNode.sound c && soundList cs

/-- One file copied to `path`: `MkdirAll` of the parent, `Create`, and the bytes. -/
def copyOne (x : List String × String) (fs : DstFS) : Option String × DstFS :=
  CopyFile (.file "" x.2) x.1 fs

/-- The files of a list copied one after the other, up to the first error. -/
def copyFiles : List (List String × String) → DstFS → Option String × DstFS
  | [], fs => (none, fs)
  | x :: rest, fs =>
    match copyOne x fs with
    | (some err, fs1) => (some err, fs1)
    | (none, fs1) => copyFiles rest fs1

/-- A source directory with a file `a` and a subdirectory `sub` holding a file `b`. -/
def sampleSrc : SrcNode :=
  .dir "src" [.file "a" "AAA", .dir "sub" [.file "b" "BBB"], .dir "empty" []]

/-- A destination filesystem that holds nothing but the root directory. -/
def emptyDst : DstFS := fun q => if q = [] then some .dir else none

/-- A destination filesystem in which `dst` already holds a file `a` with other bytes
and a file `keep` that the source does not have. -/
def usedDst : DstFS := fun q =>
  if q = [] then some .dir
  else if q = ["dst"] then some .dir
  else if q = ["dst", "a"] then some (.file "OLD")
  else if q = ["dst", "keep"] then some (.file "KEPT")
  else none

/-- A filesystem in which nothing named `.plandex` exists and the directory `/a/b`
cannot be searched: the probe of `/a/b/.plandex` fails with a permission error, every
other probe reports not-exist. -/
def deniedStat (p : String) : StatResult :=
  if p = "/a/b/.plandex" then .otherErr "stat /a/b/.plandex: permission denied"
  else .notExist

/-- A filesystem in which `/a/.plandex` is a regular file, so that nothing exists below
it: looking up `/a/.plandex/current_plan.json` fails with not-a-directory. -/
def plainFileOS : OS :=
  { stat := fun p =>
      if p = "/a/.plandex" then .ok
      else if p = "/a/.plandex/current_plan.json" then
        .otherErr "stat /a/.plandex/current_plan.json: not a directory"
      else .notExist
    readFile := fun p =>
      if p = "/a/.plandex/current_plan.json" then
        .error "open /a/.plandex/current_plan.json: not a directory"
      else .error "open: no such file or directory"
    readDir := fun _ => .error "open: no such file or directory"
    mkdir := fun _ => none }

/-- A filesystem with a directory `data` holding a file and a subdirectory `locked`
that cannot be listed, and a directory `.git` that cannot be listed. -/
def lockedFS (p : String) : Node :=
  if p = "data" then
    .dir "data" [.file "a.txt", .unreadableDir "locked" "open data/locked: permission denied"]
  else if p = ".git" then .unreadableDir ".git" "open .git: permission denied"
  else .lstatFail p "lstat: no such file or directory"

/-! ## Properties of `Clean` and `Dir` on rooted paths -/

theorem backtrackLoop_le (buf : List Char) (dd : Nat) : ∀ w, backtrackLoop buf dd w ≤ w := by
  intro w
  induction w with
  | zero => simp [backtrackLoop]
  | succ w ih =>
    unfold backtrackLoop
    split
    · omega
    · omega

theorem le_backtrackLoop (buf : List Char) (dd : Nat) :
    ∀ w, dd ≤ w → dd ≤ backtrackLoop buf dd w := by
  intro w
  induction w with
  | zero => intro h; simpa [backtrackLoop] using h
  | succ w ih =>
    intro h
    unfold backtrackLoop
    split
    · rename_i hc
      simp only [Bool.and_eq_true, decide_eq_true_eq] at hc
      exact ih (by omega)
    · exact h

/-- Splitting a path at the end of its first element. -/
theorem elem_split (l : List Char) :
    (l.takeWhile (fun x => !isPathSeparator x)).length
        + (l.dropWhile (fun x => !isPathSeparator x)).length = l.length
      ∧ ((l.dropWhile (fun x => !isPathSeparator x)) = []
          ∨ (l.dropWhile (fun x => !isPathSeparator x)).head? = some '/')
      ∧ ((l.dropWhile (fun x => !isPathSeparator x)) = [] → l.getLast? ≠ some '/')
      ∧ ((l.dropWhile (fun x => !isPathSeparator x)) ≠ [] →
          (l.dropWhile (fun x => !isPathSeparator x)).getLast? = l.getLast?) := by
  induction l with
  | nil => simp
  | cons a t ih =>
    by_cases ha : isPathSeparator a = true
    · have : a = '/' := by simpa [isPathSeparator] using ha
      subst this
      simp [List.takeWhile, List.dropWhile, isPathSeparator]
    · have ha2 : isPathSeparator a = false := by simpa using ha
      have hne : a ≠ '/' := by
        intro h; subst h; simp [isPathSeparator] at ha2
      obtain ⟨h1, h2, h3, h4⟩ := ih
      simp only [List.takeWhile, List.dropWhile, ha2, Bool.not_false, List.length_cons]
      refine ⟨by omega, h2, ?_, ?_⟩
      · intro hnil
        cases t with
        | nil => simpa using hne
        | cons b t2 =>
          rw [List.getLast?_cons_cons]
          exact h3 hnil
      · intro hnn
        cases t with
        | nil => simp at hnn
        | cons b t2 =>
          rw [List.getLast?_cons_cons]
          exact h4 hnn

theorem cleanLoop_nil (rooted : Bool) (fuel : Nat) (out : List Char) (dd : Nat) :
    cleanLoop rooted fuel [] out dd = out := by
  cases fuel <;> simp [cleanLoop]

/-- Length bound for the main loop of `Clean` on a rooted path: the output is no longer
than what was already written plus what remains to be read, a trailing separator
produces no output, and a separator is written only before a second element. -/
theorem cleanLoop_rooted_length (fuel : Nat) :
    ∀ (path out : List Char) (dd : Nat),
      (cleanLoop true fuel path out dd).length + (if path.getLast? = some '/' then 1 else 0)
        ≤ out.length + path.length
          + (if path = [] ∨ path.head? = some '/' ∨ out.length = 1 then 0 else 1) := by
  induction fuel with
  | zero =>
    intro path out dd
    simp only [cleanLoop]
    cases path with
    | nil => simp
    | cons a t => simp only [List.length_cons]; split_ifs <;> omega
  | succ fuel ih =>
    intro path out dd
    cases path with
    | nil => simp [cleanLoop]
    | cons c rest =>
      simp only [cleanLoop]
      split
      · -- separator
        rename_i hc
        have hc2 : c = '/' := by simpa [isPathSeparator] using hc
        subst hc2
        have := ih rest out dd
        cases rest with
        | nil => simp [cleanLoop_nil]
        | cons b t2 =>
          rw [List.getLast?_cons_cons]
          simp only [List.length_cons, List.head?_cons, true_or, or_true, if_true] at this ⊢
          split_ifs at this ⊢ <;> omega
      · split
        · -- . element
          rename_i hsep hdot
          simp only [Bool.and_eq_true, beq_iff_eq, Bool.or_eq_true, List.isEmpty_iff] at hdot
          obtain ⟨hc, hr⟩ := hdot
          subst hc
          have := ih rest out dd
          cases rest with
          | nil => simp only [cleanLoop_nil]; simp; omega
          | cons b t2 =>
            have hb : b = '/' := by simpa [isPathSeparator] using hr
            subst hb
            rw [List.getLast?_cons_cons]
            simp only [List.length_cons, List.head?_cons, true_or, or_true, if_true] at this ⊢
            split_ifs at this ⊢ <;> omega
        · split
          · -- .. element
            rename_i hsep hdot hdd
            simp only [Bool.and_eq_true, beq_iff_eq, Bool.or_eq_true, List.isEmpty_iff] at hdd
            obtain ⟨⟨hc, hr1⟩, hr2⟩ := hdd
            subst hc
            cases rest with
            | nil => simp at hr1
            | cons b t2 =>
              have hb : b = '.' := by simpa using hr1
              subst hb
              simp only [List.tail_cons] at hr2 ⊢
              have hfin : ∀ o : List Char, o.length ≤ out.length →
                  (cleanLoop true fuel t2 o dd).length
                    + (if ('.' :: '.' :: t2).getLast? = some '/' then 1 else 0)
                  ≤ out.length + ('.' :: '.' :: t2).length
                    + (if ('.' :: '.' :: t2) = [] ∨ ('.' :: '.' :: t2).head? = some '/'
                        ∨ out.length = 1 then 0 else 1) := by
                intro o ho
                have := ih t2 o dd
                cases t2 with
                | nil => simp [cleanLoop_nil]; omega
                | cons d t3 =>
                  have hd : d = '/' := by simpa [isPathSeparator] using hr2
                  subst hd
                  rw [List.getLast?_cons_cons, List.getLast?_cons_cons]
                  simp only [List.length_cons, List.head?_cons, true_or, or_true, if_true] at this ⊢
                  split_ifs at this ⊢ <;> omega
              split
              · apply hfin
                rw [List.length_take]
                exact Nat.min_le_right _ _
              · simp only [Bool.not_true, Bool.false_eq_true, if_false]
                exact hfin out (le_refl _)
          · -- real element
            rename_i hsep hdot hdd
            have hsep2 : isPathSeparator c = false := by simpa using hsep
            obtain ⟨h1, h2, h3, h4⟩ := elem_split (c :: rest)
            have hpos : 1 ≤ ((c :: rest).takeWhile (fun x => !isPathSeparator x)).length := by
              simp [List.takeWhile, hsep2]
            have hcne : c ≠ '/' := by
              intro h; subst h; simp [isPathSeparator] at hsep2
            generalize hE : (c :: rest).takeWhile (fun x => !isPathSeparator x) = E at *
            generalize hR : (c :: rest).dropWhile (fun x => !isPathSeparator x) = R at *
            have hout1 : ∃ o1 : List Char, (if (true && out.length != 1) || (!true && out.length != 0)
                then out ++ ['/'] else out) = o1
                  ∧ o1.length = out.length + (if out.length = 1 then 0 else 1) := by
              refine ⟨_, rfl, ?_⟩
              by_cases ho : out.length = 1 <;> simp [ho]
            obtain ⟨o1, ho1, hlen⟩ := hout1
            rw [ho1]
            have := ih R (o1 ++ E) dd
            have hd0 : (if R = [] ∨ R.head? = some '/' ∨ (o1 ++ E).length = 1 then 0 else 1)
                = 0 := by
              rcases h2 with h2 | h2 <;> simp [h2]
            rw [hd0, List.length_append, hlen] at this
            have hlast : (if (c :: rest).getLast? = some '/' then 1 else 0)
                ≤ (if R.getLast? = some '/' then 1 else 0) := by
              by_cases hnil : R = []
              · have := h3 hnil
                simp [this]
              · rw [h4 hnil]
            have hif : (if (c :: rest) = [] ∨ (c :: rest).head? = some '/' ∨ out.length = 1
                  then 0 else 1) = (if out.length = 1 then 0 else 1) := by
              by_cases ho : out.length = 1 <;> simp [hcne, ho]
            rw [hif]
            simp only [List.length_cons] at h1 ⊢
            omega

/-- The iteration bound of `cleanLoop` is never what stops it: with at least `len(path)`
iterations allowed, one more makes no difference. -/
theorem cleanLoop_fuel (rooted : Bool) (fuel : Nat) :
    ∀ (path out : List Char) (dd : Nat), path.length ≤ fuel →
      cleanLoop rooted (fuel + 1) path out dd = cleanLoop rooted fuel path out dd := by
  induction fuel with
  | zero =>
    intro path out dd h
    have : path = [] := List.length_eq_zero.mp (Nat.le_zero.mp h)
    subst this
    simp [cleanLoop]
  | succ f ih =>
    intro path out dd h
    cases path with
    | nil => simp [cleanLoop]
    | cons c rest =>
      have hr : rest.length ≤ f := by simpa using h
      have ht : rest.tail.length ≤ f := by
        rw [List.length_tail]; omega
      have hdw : ((c :: rest).dropWhile (fun x => !isPathSeparator x)).length ≤ f
          ∨ isPathSeparator c = true := by
        by_cases hc : isPathSeparator c = true
        · exact Or.inr hc
        · left
          have hc2 : isPathSeparator c = false := by simpa using hc
          simp only [List.dropWhile, hc2, Bool.not_false]
          exact le_trans (List.dropWhile_suffix _).length_le hr
      rw [cleanLoop]
      conv_rhs => rw [cleanLoop]
      simp only
      split_ifs with h1 <;> first
        | exact ih _ _ _ hr
        | exact ih _ _ _ ht
        | (rcases hdw with hdw | hdw
           · exact ih _ _ _ hdw
           · exact absurd hdw h1)

/-- Any iteration bound of at least `len(path)` gives the result of `Clean`. -/
theorem cleanLoop_enough (rooted : Bool) (path out : List Char) (dd : Nat) :
    ∀ extra : Nat, cleanLoop rooted (path.length + extra) path out dd
      = cleanLoop rooted path.length path out dd := by
  intro extra
  induction extra with
  | zero => rfl
  | succ k ih =>
    rw [← ih, ← Nat.add_assoc]
    exact cleanLoop_fuel rooted (path.length + k) path out dd (by omega)

/-- On a rooted path the output buffer of `Clean` keeps its leading separator. -/
theorem cleanLoop_rooted_head (fuel : Nat) :
    ∀ (path out : List Char) (dd : Nat), out.head? = some '/' → 1 ≤ dd →
      (cleanLoop true fuel path out dd).head? = some '/' := by
  induction fuel with
  | zero => intro path out dd h _; simpa [cleanLoop] using h
  | succ fuel ih =>
    intro path out dd h hdd
    cases path with
    | nil => simpa [cleanLoop] using h
    | cons c rest =>
      simp only [cleanLoop]
      split
      · exact ih _ _ _ h hdd
      · split
        · exact ih _ _ _ h hdd
        · split
          · split
            · rename_i hlt
              apply ih _ _ _ _ hdd
              have hw : 1 ≤ backtrackLoop out dd (out.length - 1) :=
                le_trans hdd (le_backtrackLoop out dd _ (by omega))
              cases out with
              | nil => simp at h
              | cons a o =>
                obtain ⟨k, hk⟩ : ∃ k, backtrackLoop (a :: o) dd ((a :: o).length - 1) = k + 1 :=
                  ⟨backtrackLoop (a :: o) dd ((a :: o).length - 1) - 1, by omega⟩
                rw [hk]
                simpa using h
            · simp only [Bool.not_true, Bool.false_eq_true, if_false]
              exact ih _ _ _ h hdd
          · apply ih _ _ _ _ hdd
            cases out with
            | nil => simp at h
            | cons a o =>
              have ha : a = '/' := by simpa using h
              subst ha
              split <;> simp

/-- Cleaning a rooted path gives a rooted path that is no longer, and strictly shorter
when the path has a trailing separator after the root. -/
theorem cleanChars_rooted (rest : List Char) :
    (cleanChars ('/' :: rest)).head? = some '/'
      ∧ (cleanChars ('/' :: rest)).length + (if rest.getLast? = some '/' then 1 else 0)
          ≤ rest.length + 1 := by
  have hh := cleanLoop_rooted_head ('/' :: rest).length rest ['/'] 1 rfl (le_refl _)
  have hl := cleanLoop_rooted_length ('/' :: rest).length rest ['/'] 1
  have hne : (cleanLoop true ('/' :: rest).length rest ['/'] 1).length ≠ 0 := by
    intro h0
    have : cleanLoop true ('/' :: rest).length rest ['/'] 1 = [] := List.length_eq_zero.mp h0
    rw [this] at hh
    simp at hh
  have hc : cleanChars ('/' :: rest) = cleanLoop true ('/' :: rest).length rest ['/'] 1 := by
    have hb : ((cleanLoop true ('/' :: rest).length rest ['/'] 1).length == 0) = false := by
      simpa using hne
    simp only [cleanChars, isPathSeparator, beq_self_eq_true, if_true, hb]
    simp
  rw [hc]
  refine ⟨hh, ?_⟩
  simp only [List.length_singleton, or_true, if_true] at hl
  omega

theorem dirLoop_le (p : List Char) : ∀ n, dirLoop p n ≤ n := by
  intro n
  induction n with
  | zero => simp [dirLoop]
  | succ n ih => unfold dirLoop; split <;> omega

theorem dirLoop_pos (rest : List Char) : ∀ n, 1 ≤ n → 1 ≤ dirLoop ('/' :: rest) n := by
  intro n
  induction n with
  | zero => intro h; omega
  | succ n ih =>
    intro _
    unfold dirLoop
    split
    · rename_i hc
      cases n with
      | zero => simp [isPathSeparator] at hc
      | succ m => exact ih (by omega)
    · omega

theorem dirLoop_sep (p : List Char) :
    ∀ n, 1 ≤ dirLoop p n → p.getD (dirLoop p n - 1) '/' = '/' := by
  intro n
  induction n with
  | zero => intro h; simp [dirLoop] at h
  | succ n ih =>
    unfold dirLoop
    split
    · exact ih
    · rename_i hc
      intro _
      simpa [isPathSeparator] using hc

/-- The parent of a rooted path other than `/` is rooted and strictly shorter. -/
theorem Dir_rooted (s : String) (rest : List Char) (hs : s.data = '/' :: rest)
    (hne : rest ≠ []) :
    (Dir s).data.head? = some '/' ∧ (Dir s).length < s.length := by
  have hk1 := dirLoop_pos rest ('/' :: rest).length (by simp)
  have hk2 := dirLoop_le ('/' :: rest) ('/' :: rest).length
  have hk3 := dirLoop_sep ('/' :: rest) ('/' :: rest).length hk1
  obtain ⟨k, hk⟩ : ∃ k, dirLoop ('/' :: rest) ('/' :: rest).length = k + 1 :=
    ⟨dirLoop ('/' :: rest) ('/' :: rest).length - 1, by omega⟩
  have hD : (Dir s).data = cleanChars ('/' :: rest.take k) := by
    simp only [Dir, hs, hk, List.take_succ_cons]
  have hlenD : (Dir s).length = (cleanChars ('/' :: rest.take k)).length := by
    simp only [String.length, hD]
  have hlens : s.length = rest.length + 1 := by
    simp only [String.length, hs, List.length_cons]
  obtain ⟨c1, c2⟩ := cleanChars_rooted (rest.take k)
  rw [hD, hlenD, hlens]
  refine ⟨c1, ?_⟩
  rw [hk] at hk2 hk3
  simp only [List.length_cons] at hk2
  have htl : (rest.take k).length = k := by
    rw [List.length_take]; omega
  cases k with
  | zero =>
    have : 0 < rest.length := List.length_pos.mpr hne
    simp only [List.take_zero, List.length_nil] at c2 ⊢
    split_ifs at c2 <;> omega
  | succ m =>
    have hlast : (rest.take (m + 1)).getLast? = some '/' := by
      have hm : m < rest.length := by omega
      simp only [add_tsub_cancel_right, List.getD_cons_succ] at hk3
      rw [List.getLast?_eq_getElem?, htl]
      simp only [add_tsub_cancel_right]
      rw [List.getElem?_take_of_lt (by omega)]
      rw [List.getD_eq_getElem?_getD, List.getElem?_eq_getElem hm] at hk3
      rw [List.getElem?_eq_getElem hm]
      simpa using hk3
    rw [if_pos hlast, htl] at c2
    omega

theorem rooted_cases (s : String) (h : s.data.head? = some '/') :
    ∃ rest, s.data = '/' :: rest ∧ (s = "/" ↔ rest = []) := by
  cases hd : s.data with
  | nil => rw [hd] at h; simp at h
  | cons a t =>
    rw [hd] at h
    have ha : a = '/' := by simpa using h
    subst ha
    refine ⟨t, rfl, ?_⟩
    rw [String.ext_iff, hd]
    constructor
    · intro h2
      have h3 : ('/' :: t) = ['/'] := h2
      simpa using h3
    · intro h2; subst h2; rfl

/-- The list of ancestors of a rooted path: every member is rooted and below `/`, each
is the parent of the one before, the first is the path itself and the parent of the
last is `/`. -/
theorem ancestorsBelowRoot_spec :
    ∀ (n : Nat) (s : String), s.data.head? = some '/' → s.length ≤ n →
      (∀ d ∈ ancestorsBelowRoot n s, d ≠ "/" ∧ d.data.head? = some '/')
        ∧ List.Chain' (fun a b => b = Dir a) (ancestorsBelowRoot n s)
        ∧ (ancestorsBelowRoot n s).head? = (if s = "/" then none else some s)
        ∧ (∀ d, (ancestorsBelowRoot n s).getLast? = some d → Dir d = "/") := by
  intro n
  induction n with
  | zero =>
    intro s h hl
    obtain ⟨rest, hs, _⟩ := rooted_cases s h
    simp [String.length, hs] at hl
  | succ n ih =>
    intro s h hl
    obtain ⟨rest, hs, hiff⟩ := rooted_cases s h
    by_cases hroot : s = "/"
    · simp [ancestorsBelowRoot, hroot]
    · have hne : rest ≠ [] := fun hr => hroot (hiff.mpr hr)
      obtain ⟨d1, d2⟩ := Dir_rooted s rest hs hne
      obtain ⟨i1, i2, i3, i4⟩ := ih (Dir s) d1 (by omega)
      simp only [ancestorsBelowRoot, hroot, if_false]
      refine ⟨?_, ?_, by simp, ?_⟩
      · intro d hd
        rcases List.mem_cons.mp hd with hd | hd
        · subst hd; exact ⟨hroot, h⟩
        · exact i1 d hd
      · rw [List.chain'_cons']
        refine ⟨?_, i2⟩
        intro y hy
        rw [i3] at hy
        split_ifs at hy with hD
        · simp at hy
        · simp only [Option.mem_def, Option.some.injEq] at hy
          exact hy.symm
      · intro d hd
        by_cases hD : Dir s = "/"
        · have : ancestorsBelowRoot n (Dir s) = [] := by
            cases n with
            | zero => rfl
            | succ m => simp [ancestorsBelowRoot, hD]
          rw [this] at hd
          simp only [List.getLast?_singleton, Option.some.injEq] at hd
          subst hd
          exact hD
        · have hnn : ancestorsBelowRoot n (Dir s) ≠ [] := by
            intro hnil
            rw [hnil, if_neg hD] at i3
            simp at i3
          obtain ⟨b, t, hbt⟩ := List.exists_cons_of_ne_nil hnn
          rw [hbt, List.getLast?_cons_cons] at hd
          rw [hbt] at i4
          exact i4 d hd

/-! ## `Join` and `Dir` on clean absolute paths -/

theorem takeWhile_name (n : List Char) (t : List Char)
    (hn : ∀ c ∈ n, isPathSeparator c = false) (ht : t = [] ∨ t.head? = some '/') :
    (n ++ t).takeWhile (fun x => !isPathSeparator x) = n
      ∧ (n ++ t).dropWhile (fun x => !isPathSeparator x) = t := by
  induction n with
  | nil =>
    rcases ht with ht | ht
    · subst ht; simp
    · cases t with
      | nil => simp
      | cons a t2 =>
        have : a = '/' := by simpa using ht
        subst this
        simp [List.takeWhile, List.dropWhile, isPathSeparator]
  | cons a n ih =>
    have ha : isPathSeparator a = false := hn a (by simp)
    have := ih (fun c hc => hn c (by simp [hc]))
    simp [List.takeWhile, List.dropWhile, ha, this]

/-- One directory-entry name is copied to the output as it is, after a separator unless
the output is just the root. -/
theorem cleanLoop_name (fuel : Nat) (n t out : List Char) (dd : Nat)
    (hne : n ≠ []) (hn : ∀ c ∈ n, isPathSeparator c = false)
    (hdot : n ≠ ['.']) (hdd : n ≠ ['.', '.']) (ht : t = [] ∨ t.head? = some '/') :
    cleanLoop true (fuel + 1) (n ++ t) out dd
      = cleanLoop true fuel t ((if out.length = 1 then out else out ++ ['/']) ++ n) dd := by
  obtain ⟨tw, dw⟩ := takeWhile_name n t hn ht
  cases n with
  | nil => exact absurd rfl hne
  | cons a n2 =>
    have ha : isPathSeparator a = false := hn a (by simp)
    have c1 : (a == '.' && ((n2 ++ t).isEmpty || isPathSeparator ((n2 ++ t).headD '/')))
        = false := by
      by_cases hadot : a = '.'
      · subst hadot
        cases n2 with
        | nil => exact absurd rfl hdot
        | cons b n3 =>
          have hb : isPathSeparator b = false := hn b (by simp)
          simp [hb]
      · simp [hadot]
    have c2 : (a == '.' && (n2 ++ t).headD '/' == '.'
        && ((n2 ++ t).tail.isEmpty || isPathSeparator ((n2 ++ t).tail.headD '/'))) = false := by
      by_cases hadot : a = '.'
      · subst hadot
        cases n2 with
        | nil => exact absurd rfl hdot
        | cons b n3 =>
          by_cases hbdot : b = '.'
          · subst hbdot
            cases n3 with
            | nil => exact absurd rfl hdd
            | cons c n4 =>
              have hc : isPathSeparator c = false := hn c (by simp)
              simp [hc]
          · simp [hbdot]
      · simp [hadot]
    rw [List.cons_append] at tw dw ⊢
    rw [cleanLoop]
    simp only [ha, Bool.false_eq_true, if_false, c1, c2, tw, dw, Bool.true_and,
      Bool.not_true, Bool.false_and, Bool.or_false]
    by_cases ho : out.length = 1 <;> simp [ho]

theorem joinElems_head (es : List String) :
    joinElems es = [] ∨ (joinElems es).head? = some '/' := by
  cases es with
  | nil => exact Or.inl rfl
  | cons e es => exact Or.inr rfl

/-- The main loop of `Clean` leaves a clean absolute path as it is and drops a trailing
separator. -/
theorem cleanLoop_joinElems :
    ∀ (es : List String) (trail out : List Char) (dd fuel : Nat),
      (∀ e ∈ es, validName e) → (trail = [] ∨ trail = ['/']) → out.length ≠ 1 →
      (joinElems es ++ trail).length ≤ fuel →
      cleanLoop true fuel (joinElems es ++ trail) out dd = out ++ joinElems es := by
  intro es
  induction es with
  | nil =>
    intro trail out dd fuel _ ht _ hf
    rcases ht with ht | ht
    · subst ht; simp [joinElems, cleanLoop_nil]
    · subst ht
      cases fuel with
      | zero => simp [joinElems] at hf
      | succ f => simp [joinElems, cleanLoop, isPathSeparator, cleanLoop_nil]
  | cons e es ih =>
    intro trail out dd fuel hv ht ho hf
    obtain ⟨v1, v2, v3, v4⟩ := hv e (by simp)
    simp only [joinElems, List.cons_append, List.length_cons, List.append_assoc,
      List.length_append] at hf ⊢
    have hepos : 1 ≤ e.data.length := by
      cases hd : e.data with
      | nil => exact absurd hd v1
      | cons a l => simp
    obtain ⟨f2, hf2⟩ : ∃ f2, fuel = f2 + 2 := ⟨fuel - 2, by omega⟩
    subst hf2
    have htail : (joinElems es ++ trail) = [] ∨ (joinElems es ++ trail).head? = some '/' := by
      cases es with
      | nil =>
        rcases ht with ht | ht <;> subst ht <;> simp [joinElems]
      | cons e2 es2 => exact Or.inr rfl
    rw [cleanLoop]
    simp only [isPathSeparator, beq_self_eq_true, if_true]
    rw [cleanLoop_name f2 e.data (joinElems es ++ trail) out dd v1 v2 v3 v4 htail]
    rw [if_neg ho]
    rw [ih trail _ dd f2 (fun x hx => hv x (by simp [hx])) ht
      (by simp only [List.length_append, List.length_singleton]; omega)
      (by simp only [List.length_append]; omega)]
    simp [List.append_assoc]

/-- Cleaning a clean absolute path, with or without a trailing separator, gives the
path. -/
theorem cleanChars_joinElems (e : String) (es : List String) (trail : List Char)
    (hv : ∀ x ∈ e :: es, validName x) (ht : trail = [] ∨ trail = ['/']) :
    cleanChars (joinElems (e :: es) ++ trail) = joinElems (e :: es) := by
  obtain ⟨v1, v2, v3, v4⟩ := hv e (by simp)
  have htail : (joinElems es ++ trail) = [] ∨ (joinElems es ++ trail).head? = some '/' := by
    cases es with
    | nil =>
      rcases ht with ht | ht <;> subst ht <;> simp [joinElems]
    | cons e2 es2 => exact Or.inr rfl
  have hepos : 1 ≤ e.data.length := by
    cases hd : e.data with
    | nil => exact absurd hd v1
    | cons a l => simp
  simp only [joinElems, List.cons_append, cleanChars, isPathSeparator, beq_self_eq_true,
    if_true, List.length_cons, List.append_assoc]
  have h1 := cleanLoop_name
    ((e.data ++ (joinElems es ++ trail)).length) e.data (joinElems es ++ trail) ['/'] 1
    v1 v2 v3 v4 htail
  rw [h1]
  simp only [List.length_singleton, if_true]
  rw [cleanLoop_joinElems es trail _ 1 _ (fun x hx => hv x (by simp [hx])) ht
    (by simp only [List.length_append, List.length_singleton]; omega)
    (by simp only [List.length_append]; omega)]
  simp

theorem dirLoop_last (A n : List Char) (hn : ∀ c ∈ n, isPathSeparator c = false) :
    ∀ k, k ≤ n.length → dirLoop (A ++ '/' :: n) (A.length + 1 + k) = A.length + 1 := by
  intro k
  induction k with
  | zero =>
    intro _
    have hget : (A ++ '/' :: n).getD A.length '/' = '/' := by
      rw [List.getD_eq_getElem?_getD, List.getElem?_append_right (le_refl _)]
      simp
    rw [Nat.add_zero, dirLoop, hget]
    simp [isPathSeparator]
  | succ k ih =>
    intro hk
    have hlt : k < n.length := by omega
    have hget : (A ++ '/' :: n).getD (A.length + 1 + k) '/' = n[k] := by
      rw [List.getD_eq_getElem?_getD, List.getElem?_append_right (by omega)]
      have : A.length + 1 + k - A.length = k + 1 := by omega
      rw [this, List.getElem?_cons_succ, List.getElem?_eq_getElem hlt]
      rfl
    have hns : isPathSeparator n[k] = false := hn _ (List.getElem_mem _)
    rw [← Nat.add_assoc, dirLoop, hget, hns]
    simp only [Bool.not_false, if_true]
    exact ih (by omega)

theorem joinElems_append (es : List String) (n : String) :
    joinElems (es ++ [n]) = joinElems es ++ '/' :: n.data := by
  induction es with
  | nil => simp [joinElems]
  | cons e es ih => simp [joinElems, ih]

/-- On a clean absolute path `filepath.Join(dir, name)` adds the element `name`. -/
theorem Join_absPath (es : List String) (n : String) (hv : ∀ x ∈ es, validName x)
    (hn : validName n) : Join (absPath es) n = absPath (es ++ [n]) := by
  have hne : (absPath es != "") = true := by
    cases es <;> simp [absPath, joinElems, bne, String.ext_iff]
  have hall : ∀ x ∈ es ++ [n], validName x := by
    intro x hx
    rcases List.mem_append.mp hx with hx | hx
    · exact hv x hx
    · simp only [List.mem_singleton] at hx
      subst hx
      exact hn
  simp only [Join, hne, if_true, Clean, String.data_append]
  apply congrArg String.mk
  cases es with
  | nil =>
    obtain ⟨v1, v2, v3, v4⟩ := hn
    simp only [absPath, if_true, List.nil_append, List.cons_append, if_false,
      joinElems, List.append_nil, List.singleton_append]
    simp only [cleanChars, isPathSeparator, beq_self_eq_true, if_true, List.length_cons]
    rw [cleanLoop]
    simp only [isPathSeparator, beq_self_eq_true, if_true]
    have := cleanLoop_name n.data.length n.data [] ['/'] 1 v1 v2 v3 v4 (Or.inl rfl)
    rw [List.append_nil] at this
    rw [this]
    simp [cleanLoop_nil]
  | cons e es2 =>
    simp only [absPath, if_false, List.append_assoc, List.singleton_append,
      List.cons_append, reduceCtorEq]
    have h := cleanChars_joinElems e (es2 ++ [n]) [] hall (Or.inl rfl)
    rw [List.append_nil] at h
    have h2 := joinElems_append (e :: es2) n
    rw [List.cons_append] at h2
    rw [h2] at h
    rw [h2]
    simpa using h

/-- On a clean absolute path `filepath.Dir` drops the last element. -/
theorem Dir_absPath (es : List String) (n : String) (hv : ∀ x ∈ es, validName x)
    (hn : validName n) : Dir (absPath (es ++ [n])) = absPath es := by
  obtain ⟨v1, v2, v3, v4⟩ := hn
  have hdata : (absPath (es ++ [n])).data = joinElems es ++ '/' :: n.data := by
    have : es ++ [n] ≠ [] := by simp
    simp only [absPath, this, if_false, joinElems_append]
  have hk := dirLoop_last (joinElems es) n.data v2 n.data.length (le_refl _)
  simp only [Dir, hdata]
  have hlen : (joinElems es ++ '/' :: n.data).length = (joinElems es).length + 1 + n.data.length := by
    simp only [List.length_append, List.length_cons]; omega
  rw [hlen, hk]
  have htake : (joinElems es ++ '/' :: n.data).take ((joinElems es).length + 1)
      = joinElems es ++ ['/'] := by
    rw [List.take_append_eq_append_take]
    simp
  rw [htake]
  apply congrArg String.mk
  cases es with
  | nil => decide
  | cons e es2 =>
    simp only [absPath, reduceCtorEq, if_false]
    exact cleanChars_joinElems e es2 ['/'] hv (Or.inr rfl)

theorem joinElems_length (es : List String) (hv : ∀ x ∈ es, validName x) :
    2 * es.length ≤ (joinElems es).length := by
  induction es with
  | nil => simp [joinElems]
  | cons e es ih =>
    have := ih (fun x hx => hv x (by simp [hx]))
    obtain ⟨v1, _, _, _⟩ := hv e (by simp)
    have hepos : 1 ≤ e.data.length := by
      cases hd : e.data with
      | nil => exact absurd hd v1
      | cons a l => simp
    simp only [joinElems, List.length_cons, List.length_append]
    omega

theorem absPath_length (es : List String) (hv : ∀ x ∈ es, validName x) :
    es.length ≤ (absPath es).length := by
  have := joinElems_length es hv
  cases es with
  | nil => simp
  | cons e es2 =>
    simp only [absPath, reduceCtorEq, if_false, String.length]
    omega

theorem absPath_ne_root (es : List String) (n : String) (hv : ∀ x ∈ es ++ [n], validName x) :
    absPath (es ++ [n]) ≠ "/" := by
  intro h
  have h2 := congrArg String.length h
  have h3 := joinElems_length (es ++ [n]) hv
  have hne : es ++ [n] ≠ [] := by simp
  simp only [absPath, hne, if_false, String.length] at h2
  simp only [List.length_append, List.length_singleton] at h2 h3
  omega

/-- For a clean absolute path the directories `findPlandex` goes through are the path
itself and its ancestors in the usual sense: the paths of the non-empty initial
segments of its elements, longest first. -/
theorem ancestorsBelowRoot_absPath :
    ∀ (n : Nat) (es : List String), (∀ x ∈ es, validName x) → es.length ≤ n →
      ancestorsBelowRoot n (absPath es)
        = (List.range es.length).map (fun k => absPath (es.take (es.length - k))) := by
  intro n
  induction n with
  | zero =>
    intro es _ hl
    have : es = [] := List.length_eq_zero.mp (Nat.le_zero.mp hl)
    subst this
    rfl
  | succ n ih =>
    intro es hv hl
    rcases List.eq_nil_or_concat es with hnil | ⟨es2, x, hes⟩
    · subst hnil
      rfl
    · rw [List.concat_eq_append] at hes
      subst hes
      have hv2 : ∀ y ∈ es2, validName y := fun y hy => hv y (by simp [hy])
      have hx : validName x := hv x (by simp)
      have hl2 : es2.length ≤ n := by
        simp only [List.length_append, List.length_singleton] at hl
        omega
      have hroot := absPath_ne_root es2 x hv
      simp only [ancestorsBelowRoot, hroot, if_false, Dir_absPath es2 x hv2 hx, ih es2 hv2 hl2]
      simp only [List.length_append, List.length_singleton, List.range_succ_eq_map,
        List.map_cons, List.map_map, Nat.sub_zero]
      congr 1
      · have : (es2 ++ [x]).take (es2.length + 1) = es2 ++ [x] := by
          apply List.take_of_length_le
          simp
        rw [this]
      · apply List.map_congr_left
        intro k hk
        simp only [List.mem_range] at hk
        simp only [Function.comp]
        have : es2.length + 1 - k.succ = es2.length - k := by omega
        rw [this, List.take_append_of_le_length (by omega)]

/-! ## `findPlandex` -/

theorem findPlandexLoop_spec (stat : String → StatResult) :
    ∀ (fuel : Nat) (s : String) (probed : List String),
      s.data.head? = some '/' → s.length ≤ fuel →
      ∃ extra,
        findPlandexLoop stat fuel s probed
          = some ((match (ancestorsBelowRoot fuel s).find? (notMissing stat) with
                   | some d => (Join d ".plandex", d)
                   | none => ("", "")), probed ++ extra)
        ∧ ∀ p ∈ extra, ∃ d ∈ ancestorsBelowRoot fuel s, p = Join d ".plandex" := by
  intro fuel
  induction fuel with
  | zero =>
    intro s probed h hl
    obtain ⟨rest, hs, _⟩ := rooted_cases s h
    simp [String.length, hs] at hl
  | succ n ih =>
    intro s probed h hl
    obtain ⟨rest, hs, hiff⟩ := rooted_cases s h
    by_cases hroot : s = "/"
    · refine ⟨[], ?_, by simp⟩
      simp [findPlandexLoop, ancestorsBelowRoot, hroot]
    · have hne : rest ≠ [] := fun hr => hroot (hiff.mpr hr)
      obtain ⟨d1, d2⟩ := Dir_rooted s rest hs hne
      have hb : (s != "/") = true := by simpa using hroot
      by_cases hp : notMissing stat s = true
      · refine ⟨[Join s ".plandex"], ?_, ?_⟩
        · have hp2 : (!osIsNotExist (stat (Join s ".plandex"))) = true := hp
          simp only [findPlandexLoop, hb, if_true, hp2, ancestorsBelowRoot, hroot, if_false,
            List.find?_cons, hp]
        · intro p hpm
          refine ⟨s, ?_, by simpa using hpm⟩
          simp [ancestorsBelowRoot, hroot]
      · obtain ⟨extra, e1, e2⟩ := ih (Dir s) (probed ++ [Join s ".plandex"]) d1 (by omega)
        refine ⟨Join s ".plandex" :: extra, ?_, ?_⟩
        · have hp3 : notMissing stat s = false := by simpa using hp
          have hp2 : (!osIsNotExist (stat (Join s ".plandex"))) = false := hp3
          simp only [findPlandexLoop, hb, if_true, hp2, ancestorsBelowRoot, hroot, if_false,
            List.find?_cons, hp3, Bool.false_eq_true]
          rw [e1]
          simp
        · intro p hpm
          rcases List.mem_cons.mp hpm with hpm | hpm
          · exact ⟨s, by simp [ancestorsBelowRoot, hroot], hpm⟩
          · obtain ⟨d, hd, hpd⟩ := e2 p hpm
            exact ⟨d, by simp [ancestorsBelowRoot, hroot, hd], hpd⟩

theorem validName_plandex : validName ".plandex" := by
  refine ⟨by decide, ?_, by decide, by decide⟩
  intro c hc
  have h : (".plandex" : String).data = ['.', 'p', 'l', 'a', 'n', 'd', 'e', 'x'] := rfl
  rw [h] at hc
  simp only [List.mem_cons, List.mem_singleton, List.not_mem_nil, or_false] at hc
  rcases hc with h | h | h | h | h | h | h | h <;> subst h <;> decide

/-- C5, as the code has it: for every absolute working directory `Cwd`, `findPlandex`
terminates.  It goes through `Cwd`, `filepath.Dir(Cwd)`, and so on, as long as the path
is not the string `/`, and returns `(d/.plandex, d)` for the first such `d` for which
`os.Stat` on `d/.plandex` does not report not-exist (the entry is there, or the probe
fails with another error), and `("", "")` when every probe reports not-exist.  The
directories gone through are rooted and different from `/`, each the parent of the one
before, the last having `/` as its parent; only `d/.plandex` for such `d` is probed.
For a clean `Cwd` with the elements `e1 ... en` these directories are `/e1/.../en`,
`/e1/.../e(n-1)`, ..., `/e1`, the probes are of the paths `/e1/.../ek/.plandex` with
`k` at least 1, and `/.plandex` is not probed.  The test made on `d` holds exactly when
`os.Stat` on `d/.plandex` does not report not-exist; where that probe does not fail for
another reason, this is exactly when `os.Stat` finds the entry. -/
theorem findPlandex_nearest (stat : String → StatResult) (Cwd : String)
    (habs : Cwd.data.head? = some '/') :
    ∃ probed,
      findPlandex stat Cwd
        = some ((match (ancestorsBelowRoot Cwd.length Cwd).find? (notMissing stat) with
                 | some d => (Join d ".plandex", d)
                 | none => ("", "")), probed)
      ∧ (∀ p ∈ probed, ∃ d ∈ ancestorsBelowRoot Cwd.length Cwd, p = Join d ".plandex")
      ∧ (∀ d ∈ ancestorsBelowRoot Cwd.length Cwd, d ≠ "/" ∧ d.data.head? = some '/')
      ∧ List.Chain' (fun a b => b = Dir a) (ancestorsBelowRoot Cwd.length Cwd)
      ∧ (ancestorsBelowRoot Cwd.length Cwd).head? = (if Cwd = "/" then none else some Cwd)
      ∧ (∀ d, (ancestorsBelowRoot Cwd.length Cwd).getLast? = some d → Dir d = "/")
      ∧ (∀ es : List String, (∀ x ∈ es, validName x) → Cwd = absPath es →
          ancestorsBelowRoot Cwd.length Cwd
            = (List.range es.length).map (fun k => absPath (es.take (es.length - k))))
      ∧ (∀ d : String, (∀ msg, stat (Join d ".plandex") ≠ .otherErr msg) →
          (notMissing stat d = true ↔ stat (Join d ".plandex") = .ok))
      ∧ (∀ es : List String, (∀ x ∈ es, validName x) → Cwd = absPath es →
          ∀ p ∈ probed, p ≠ "/.plandex"
            ∧ ∃ k, k < es.length ∧ p = absPath (es.take (es.length - k) ++ [".plandex"]))
      ∧ (∀ d : String, notMissing stat d = true ↔ stat (Join d ".plandex") ≠ .notExist) := by
  obtain ⟨extra, e1, e2⟩ := findPlandexLoop_spec stat Cwd.length Cwd [] habs (le_refl _)
  obtain ⟨a1, a2, a3, a4⟩ := ancestorsBelowRoot_spec Cwd.length Cwd habs (le_refl _)
  refine ⟨extra, ?_, e2, a1, a2, a3, a4, ?_, ?_, ?_, ?_⟩
  rotate_left 3
  · intro es hv hes p hp
    obtain ⟨d, hd, hpd⟩ := e2 p hp
    subst hes
    rw [ancestorsBelowRoot_absPath _ es hv (absPath_length es hv)] at hd
    simp only [List.mem_map, List.mem_range] at hd
    obtain ⟨k, hk, hdk⟩ := hd
    have hvt : ∀ x ∈ es.take (es.length - k), validName x :=
      fun x hx => hv x (List.mem_of_mem_take hx)
    have hj : p = absPath (es.take (es.length - k) ++ [".plandex"]) := by
      rw [hpd, ← hdk]
      exact Join_absPath _ _ hvt validName_plandex
    refine ⟨?_, k, hk, hj⟩
    intro hroot
    rw [hroot] at hj
    have hlen := congrArg String.length hj
    have hne : es.take (es.length - k) ++ [".plandex"] ≠ [] := by simp
    have hjl := joinElems_length (es.take (es.length - k)) hvt
    have ht : (es.take (es.length - k)).length = es.length - k := by
      rw [List.length_take]; omega
    have h9 : ("/.plandex" : String).length = 9 := by decide
    have h8 : (".plandex" : String).data.length = 8 := by decide
    rw [h9] at hlen
    simp only [absPath, hne, if_false, String.length, joinElems_append, List.length_append,
      List.length_cons, h8] at hlen
    omega
  · intro d
    unfold notMissing
    cases hst : stat (Join d ".plandex") <;> simp [osIsNotExist]
  · simpa [findPlandex] using e1
  · intro es hv hes
    subst hes
    exact ancestorsBelowRoot_absPath _ es hv (absPath_length es hv)
  · intro d hd
    unfold notMissing
    cases hst : stat (Join d ".plandex") with
    | ok => simp [osIsNotExist]
    | notExist => simp [osIsNotExist]
    | otherErr msg => exact absurd hst (hd msg)

/-- C5, the example of the specification: from `/a/b/c`, with a control directory only
at `/a/.plandex`, the search directory returned is `/a`. -/
theorem findPlandex_nearest_witness :
    ("/a/b/c".data.head? = some '/')
      ∧ ancestorsBelowRoot "/a/b/c".length "/a/b/c" = ["/a/b/c", "/a/b", "/a"]
      ∧ findPlandex (fun p => if p = "/a/.plandex" then .ok else .notExist) "/a/b/c"
          = some (("/a/.plandex", "/a"),
              ["/a/b/c/.plandex", "/a/b/.plandex", "/a/.plandex"])
      ∧ ∃ probed,
        findPlandex (fun p => if p = "/a/.plandex" then .ok else .notExist) "/a/b/c"
          = some ((match (ancestorsBelowRoot "/a/b/c".length "/a/b/c").find?
                      (notMissing (fun p => if p = "/a/.plandex" then .ok else .notExist)) with
                   | some d => (Join d ".plandex", d)
                   | none => ("", "")), probed) :=
  ⟨by decide, by decide, by decide,
    (findPlandex_nearest (fun p => if p = "/a/.plandex" then .ok else .notExist) "/a/b/c"
      (by decide)).imp (fun _ h => h.1)⟩

/-- C5 fails as stated.  With no entry named `.plandex` anywhere (no probe succeeds)
and the probe of `/a/b/.plandex` failing with a permission error, `findPlandex` from
`/a/b` returns `/a/b` as the directory found, not `("", "")`.  And from the working
directory `//`, which is the root, `/.plandex` is probed and the root is returned. -/
theorem findPlandex_failed_probe_found :
    (∀ p, deniedStat p ≠ .ok)
      ∧ findPlandex deniedStat "/a/b" = some (("/a/b/.plandex", "/a/b"), ["/a/b/.plandex"])
      ∧ "//".data.head? = some '/'
      ∧ findPlandex (fun p => if p = "/.plandex" then .ok else .notExist) "//"
          = some (("/.plandex", "//"), ["/.plandex"]) := by
  refine ⟨?_, by decide, by decide, by decide⟩
  intro p
  unfold deniedStat
  split <;> simp

/-! ## `LoadCurrentPlan` and `FindOrCreatePlandex` -/

theorem reading_not_unmarshalling (e : String) :
    ¬ ("error unmarshalling current_plan.json".data
        <+: ("error reading current_plan.json: " ++ e).data) := by
  rintro ⟨t, ht⟩
  have h := congrArg (List.take 7) ht
  rw [String.data_append] at h
  simp at h

theorem unmarshalling_not_reading (e : String) :
    ¬ ("error reading current_plan.json".data
        <+: ("error unmarshalling current_plan.json: " ++ e).data) := by
  rintro ⟨t, ht⟩
  have h := congrArg (List.take 7) ht
  rw [String.data_append] at h
  simp at h

/-- C9 fails as stated.  With the control directory path `/a/.plandex` naming a regular
file, nothing named `current_plan.json` exists (the only path `os.Stat` finds is
`/a/.plandex` itself), the probe of `/a/.plandex/current_plan.json` fails with
not-a-directory, and `LoadCurrentPlan` returns the error `error reading
current_plan.json: ...` instead of `nil`, even with a decoder that accepts
everything. -/
theorem LoadCurrentPlan_error_without_file :
    (∀ p, plainFileOS.stat p = .ok → p = "/a/.plandex")
      ∧ Join "/a/.plandex" "current_plan.json" = "/a/.plandex/current_plan.json"
      ∧ plainFileOS.stat "/a/.plandex/current_plan.json" ≠ .ok
      ∧ LoadCurrentPlan plainFileOS (fun _ => .ok { Name := "plan" })
          { zeroGlobals with PlandexDir := "/a/.plandex" }
          = (some ("error reading current_plan.json: "
                ++ "open /a/.plandex/current_plan.json: not a directory"),
              { zeroGlobals with PlandexDir := "/a/.plandex" }) := by
  have hj : Join "/a/.plandex" "current_plan.json" = "/a/.plandex/current_plan.json" := by
    decide
  refine ⟨?_, hj, by decide, ?_⟩
  · intro p hp
    by_contra hne
    simp only [plainFileOS, hne, if_false] at hp
    split at hp <;> cases hp
  · simp only [LoadCurrentPlan, hj]
    rfl

/-- C9, as the code has it: `LoadCurrentPlan` returns an error exactly when `os.Stat`
on `current_plan.json` in the control directory does not report not-exist (the file
exists, or the probe fails with another error) and the file cannot be read or cannot
be decoded; the message starts with `error reading current_plan.json` in the first
case and with `error unmarshalling current_plan.json` in the second, and neither
message starts with the other prefix; when `os.Stat` reports not-exist the result is
`nil`; and in that outcome and in both error outcomes every package-level variable is
left as it was. -/
theorem LoadCurrentPlan_errors (os : OS) (unmarshal : String → Except String PlanSettings)
    (g : Globals) :
    ((LoadCurrentPlan os unmarshal g).1 ≠ none ↔
        osIsNotExist (os.stat (Join g.PlandexDir "current_plan.json")) = false
          ∧ ((∃ err, os.readFile (Join g.PlandexDir "current_plan.json") = .error err)
              ∨ ∃ fileBytes err,
                  os.readFile (Join g.PlandexDir "current_plan.json") = .ok fileBytes
                    ∧ unmarshal fileBytes = .error err))
      ∧ (osIsNotExist (os.stat (Join g.PlandexDir "current_plan.json")) = true →
          LoadCurrentPlan os unmarshal g = (none, g))
      ∧ (∀ err, osIsNotExist (os.stat (Join g.PlandexDir "current_plan.json")) = false →
          os.readFile (Join g.PlandexDir "current_plan.json") = .error err →
          LoadCurrentPlan os unmarshal g
            = (some ("error reading current_plan.json: " ++ err), g))
      ∧ (∀ fileBytes err,
          osIsNotExist (os.stat (Join g.PlandexDir "current_plan.json")) = false →
          os.readFile (Join g.PlandexDir "current_plan.json") = .ok fileBytes →
          unmarshal fileBytes = .error err →
          LoadCurrentPlan os unmarshal g
            = (some ("error unmarshalling current_plan.json: " ++ err), g))
      ∧ (∀ e : String,
          ¬ ("error unmarshalling current_plan.json".data
              <+: ("error reading current_plan.json: " ++ e).data)
          ∧ ¬ ("error reading current_plan.json".data
              <+: ("error unmarshalling current_plan.json: " ++ e).data)) := by
  refine ⟨?_, ?_, ?_, ?_, fun e => ⟨reading_not_unmarshalling e, unmarshalling_not_reading e⟩⟩
  · unfold LoadCurrentPlan
    cases hst : osIsNotExist (os.stat (Join g.PlandexDir "current_plan.json"))
    · cases hrd : os.readFile (Join g.PlandexDir "current_plan.json") with
      | error err => simp [hst, hrd]
      | ok fileBytes =>
        cases hun : unmarshal fileBytes with
        | error err => simp [hst, hrd, hun]
        | ok ps => simp [hst, hrd, hun]
    · simp [hst]
  · intro h
    simp [LoadCurrentPlan, h]
  · intro err h1 h2
    simp [LoadCurrentPlan, h1, h2]
  · intro fileBytes err h1 h2 h3
    simp [LoadCurrentPlan, h1, h2, h3]

theorem LoadCurrentPlan_loads (os : OS) (unmarshal : String → Except String PlanSettings)
    (g : Globals) (h : loadsPlan os unmarshal g = true) :
    (LoadCurrentPlan os unmarshal g).1 = none
      ∧ DerivedFrom g.PlandexDir (LoadCurrentPlan os unmarshal g).2
      ∧ (LoadCurrentPlan os unmarshal g).2.PlandexDir = g.PlandexDir
      ∧ (LoadCurrentPlan os unmarshal g).2.Cwd = g.Cwd := by
  unfold loadsPlan at h
  unfold LoadCurrentPlan
  cases hst : osIsNotExist (os.stat (Join g.PlandexDir "current_plan.json"))
  · cases hrd : os.readFile (Join g.PlandexDir "current_plan.json") with
    | error err => simp [hst, hrd] at h
    | ok fileBytes =>
      cases hun : unmarshal fileBytes with
      | error err => simp [hst, hrd, hun] at h
      | ok ps => simp [hst, hrd, hun, DerivedFrom]
  · simp [hst] at h

theorem LoadCurrentPlan_not_loads (os : OS)
    (unmarshal : String → Except String PlanSettings) (g : Globals)
    (h : loadsPlan os unmarshal g = false) :
    (LoadCurrentPlan os unmarshal g).2 = g := by
  unfold loadsPlan at h
  unfold LoadCurrentPlan
  cases hst : osIsNotExist (os.stat (Join g.PlandexDir "current_plan.json"))
  · cases hrd : os.readFile (Join g.PlandexDir "current_plan.json") with
    | error err => simp [hst, hrd]
    | ok fileBytes =>
      cases hun : unmarshal fileBytes with
      | error err => simp [hst, hrd, hun]
      | ok ps => simp [hst, hrd, hun] at h
  · simp [hst]

theorem FindOrCreatePlandex_state (os : OS) (g : Globals) :
    ((FindOrCreatePlandex os g).1.2.1 = false → (FindOrCreatePlandex os g).2 = g)
      ∧ ∀ d, DerivedFrom d g → DerivedFrom d (FindOrCreatePlandex os g).2 := by
  unfold FindOrCreatePlandex
  cases hst : os.stat (Join g.Cwd ".plandex") with
  | ok => simp [hst]
  | otherErr e => simp [hst]
  | notExist =>
    cases hmk : os.mkdir (Join g.Cwd ".plandex") with
    | some e => simp [hst, hmk]
    | none => simp [hst, hmk, DerivedFrom]

/-- C10, as the code has it: in every session reachable from startup by
`LoadCurrentPlan` and `FindOrCreatePlandex` calls in which a plan has been loaded, the
derived paths are the ones computed from the current plan name and the control
directory `d` of the latest load (`CurrentPlanDir = d/CurrentPlanName`, and the four
subdirectories below it), and `PlandexDir` still is `d` unless `FindOrCreatePlandex`
has created a control directory since that load. -/
theorem derived_paths_in_sync (unmarshal : String → Except String PlanSettings)
    (s : Session) (h : Reachable unmarshal s) :
    ∀ d, s.loadedFrom = some d →
      DerivedFrom d s.g ∧ (s.createdSince = false → s.g.PlandexDir = d) := by
  induction h with
  | startup os cwd s hs =>
    intro d hd
    unfold Session.startup at hs
    cases hf : initLocate os cwd with
    | none => simp [hf] at hs
    | some g0 =>
      simp only [hf] at hs
      by_cases hl : loadsPlan os unmarshal g0 = true
      · obtain ⟨l1, l2, l3, _⟩ := LoadCurrentPlan_loads os unmarshal g0 hl
        generalize LoadCurrentPlan os unmarshal g0 = r at *
        obtain ⟨e, g⟩ := r
        simp only at l1
        subst l1
        simp only [hl, if_true, Option.some.injEq] at hs
        subst hs
        simp only [Option.some.injEq] at hd
        subst hd
        exact ⟨l2, fun _ => l3⟩
      · generalize LoadCurrentPlan os unmarshal g0 = r at *
        obtain ⟨e, g⟩ := r
        cases e with
        | some e => simp at hs
        | none =>
          simp only [hl, Option.some.injEq] at hs
          subst hs
          simp at hd
  | call os c s hreach ih =>
    intro d hd
    cases c with
    | loadCurrentPlan =>
      by_cases hl : loadsPlan os unmarshal s.g = true
      · obtain ⟨l1, l2, l3, _⟩ := LoadCurrentPlan_loads os unmarshal _ hl
        simp only [Session.call, hl, if_true, Option.some.injEq] at hd ⊢
        subst hd
        exact ⟨l2, fun _ => l3⟩
      · have hl2 : loadsPlan os unmarshal s.g = false := by simpa using hl
        have := LoadCurrentPlan_not_loads os unmarshal s.g hl2
        simp only [Session.call, hl2, Bool.false_eq_true, if_false, this] at hd ⊢
        exact ih d hd
    | findOrCreatePlandex =>
      obtain ⟨f1, f2⟩ := FindOrCreatePlandex_state os s.g
      simp only [Session.call] at hd ⊢
      obtain ⟨i1, i2⟩ := ih d hd
      refine ⟨f2 d i1, ?_⟩
      intro hc
      simp only [Bool.or_eq_false_iff] at hc
      rw [f1 hc.2]
      exact i2 hc.1

/-- C10, an instance: the session started in `/a/b` below the control directory
`/a/.plandex` with plan `p` has its derived paths in sync. -/
theorem derived_paths_in_sync_witness :
    DerivedFrom "/a/.plandex" projectSession.g
      ∧ (projectSession.createdSince = false → projectSession.g.PlandexDir = "/a/.plandex") :=
  derived_paths_in_sync projectUnmarshal projectSession
    (Reachable.startup projectOS "/a/b" projectSession (by decide)) "/a/.plandex" rfl

/-- C10 fails as stated: started in `/a/b` below the control directory `/a/.plandex`
(plan `p` loaded), a call of `FindOrCreatePlandex` creates `/a/b/.plandex` and makes
it `PlandexDir`, while `CurrentPlanDir` and the four subdirectories still point below
`/a/.plandex`. -/
theorem derived_paths_stale_after_create :
    Reachable projectUnmarshal
        (Session.call projectOS projectUnmarshal .findOrCreatePlandex projectSession)
      ∧ (Session.call projectOS projectUnmarshal .findOrCreatePlandex projectSession).loadedFrom
          ≠ none
      ∧ (Session.call projectOS projectUnmarshal .findOrCreatePlandex projectSession).g.PlandexDir
          = "/a/b/.plandex"
      ∧ (Session.call projectOS projectUnmarshal .findOrCreatePlandex projectSession).g.CurrentPlanDir
          = "/a/.plandex/p"
      ∧ ¬ DerivedFrom
          (Session.call projectOS projectUnmarshal .findOrCreatePlandex projectSession).g.PlandexDir
          (Session.call projectOS projectUnmarshal .findOrCreatePlandex projectSession).g :=
  ⟨Reachable.call projectOS .findOrCreatePlandex projectSession
      (Reachable.startup projectOS "/a/b" projectSession (by decide)),
    by decide, by decide, by decide, by decide⟩

/-! ## `GetLatestPlanDescription` -/

theorem char_toNat_inj {a b : Char} (h : a.toNat = b.toNat) : a = b := by
  apply Char.ext
  rcases a with ⟨⟨⟨av, ha⟩⟩, va⟩
  rcases b with ⟨⟨⟨bv, hb⟩⟩, vb⟩
  simp only [Char.toNat, UInt32.toNat] at h
  simp only at h ⊢
  subst h
  rfl

theorem bytesLess_irrefl : ∀ a : List Char, bytesLess a a = false := by
  intro a
  induction a with
  | nil => rfl
  | cons x t ih => simp [bytesLess, ih]

theorem bytesLess_trans :
    ∀ a b c : List Char, bytesLess a b = true → bytesLess b c = true → bytesLess a c = true := by
  intro a
  induction a with
  | nil =>
    intro b c h1 h2
    cases b with
    | nil => simp [bytesLess] at h1
    | cons y bt =>
      cases c with
      | nil => simp [bytesLess] at h2
      | cons z ct => simp [bytesLess]
  | cons x at_ ih =>
    intro b c h1 h2
    cases b with
    | nil => simp [bytesLess] at h1
    | cons y bt =>
      cases c with
      | nil => simp [bytesLess] at h2
      | cons z ct =>
        simp only [bytesLess] at h1 h2 ⊢
        split_ifs at h1 h2 ⊢ <;> first
          | rfl
          | omega
          | simp at h1
          | simp at h2
          | exact ih bt ct h1 h2

theorem bytesLess_total :
    ∀ a b : List Char, bytesLess a b = false → bytesLess b a = false → a = b := by
  intro a
  induction a with
  | nil =>
    intro b h1 _
    cases b with
    | nil => rfl
    | cons y bt => simp [bytesLess] at h1
  | cons x at_ ih =>
    intro b h1 h2
    cases b with
    | nil => simp [bytesLess] at h2
    | cons y bt =>
      simp only [bytesLess] at h1 h2
      split_ifs at h1 h2 with c1 c2
      have hxy : x = y := char_toNat_inj (by omega)
      rw [hxy, ih bt h1 h2]

theorem latestLoop_some :
    ∀ (entries : List DirEntry) (latestFile : DirEntry),
      ∃ e, latestLoop entries (some latestFile) = some e
        ∧ (e = latestFile ∨ e ∈ entries)
        ∧ stringGreater latestFile.Name e.Name = false
        ∧ ∀ e2 ∈ entries, stringGreater e2.Name e.Name = false := by
  intro entries
  induction entries with
  | nil =>
    intro latestFile
    exact ⟨latestFile, rfl, Or.inl rfl, bytesLess_irrefl _, by simp⟩
  | cons x rest ih =>
    intro latestFile
    by_cases hg : stringGreater x.Name latestFile.Name = true
    · obtain ⟨e, e1, e2, e3, e4⟩ := ih x
      refine ⟨e, by simp [latestLoop, hg, e1], ?_, ?_, ?_⟩
      · rcases e2 with e2 | e2
        · exact Or.inr (by simp [e2])
        · exact Or.inr (by simp [e2])
      · by_contra hc
        have hc2 : stringGreater latestFile.Name e.Name = true := by simpa using hc
        have h5 : bytesLess latestFile.Name.data x.Name.data = true := hg
        have h6 : bytesLess e.Name.data latestFile.Name.data = true := hc2
        have h7 := bytesLess_trans _ _ _ h6 h5
        have h8 : bytesLess e.Name.data x.Name.data = false := e3
        rw [h8] at h7
        simp at h7
      · intro e2' he2
        rcases List.mem_cons.mp he2 with he2 | he2
        · subst he2; exact e3
        · exact e4 e2' he2
    · have hg2 : stringGreater x.Name latestFile.Name = false := by simpa using hg
      obtain ⟨e, e1, e2, e3, e4⟩ := ih latestFile
      refine ⟨e, by simp [latestLoop, hg2, e1], ?_, e3, ?_⟩
      · rcases e2 with e2 | e2
        · exact Or.inl e2
        · exact Or.inr (by simp [e2])
      · intro e2' he2
        rcases List.mem_cons.mp he2 with he2 | he2
        · subst he2
          by_contra hc
          have hc2 : bytesLess e.Name.data e2'.Name.data = true := by
            simpa [stringGreater] using hc
          by_cases hle : bytesLess latestFile.Name.data e.Name.data = true
          · have := bytesLess_trans _ _ _ hle hc2
            have h9 : bytesLess latestFile.Name.data e2'.Name.data = false := hg2
            rw [h9] at this
            simp at this
          · have hle2 : bytesLess latestFile.Name.data e.Name.data = false := by simpa using hle
            have h10 : bytesLess e.Name.data latestFile.Name.data = false := e3
            have heq := bytesLess_total _ _ hle2 h10
            rw [← heq] at hc2
            have h9 : bytesLess latestFile.Name.data e2'.Name.data = false := hg2
            rw [h9] at hc2
            simp at hc2
        · exact e4 e2' he2

/-- The entry selected from a non-empty listing is one of the listing and no name in
the listing is greater than its name. -/
theorem latestLoop_greatest (entries : List DirEntry) (hne : entries ≠ []) :
    ∃ e, latestLoop entries none = some e ∧ e ∈ entries
      ∧ ∀ e2 ∈ entries, stringGreater e2.Name e.Name = false := by
  cases entries with
  | nil => exact absurd rfl hne
  | cons x rest =>
    obtain ⟨e, e1, e2, e3, e4⟩ := latestLoop_some rest x
    refine ⟨e, by simp [latestLoop, e1], ?_, ?_⟩
    · rcases e2 with e2 | e2
      · simp [e2]
      · simp [e2]
    · intro e2' he2
      rcases List.mem_cons.mp he2 with he2 | he2
      · subst he2; exact e3
      · exact e4 e2' he2

/-- C7: for every non-empty listing of the descriptions directory, the file that
`GetLatestPlanDescription` reads and decodes is that of an entry of the listing whose
name no other name exceeds in Go's string order; and listing the same entries in
another order gives the same result. -/
theorem GetLatestPlanDescription_greatest {PlanDescription : Type} (os : OS)
    (unmarshal : String → Except String PlanDescription) (g : Globals)
    (entries : List DirEntry) (hdir : os.readDir g.DescriptionsSubdir = .ok entries)
    (hne : entries ≠ []) :
    (∃ e ∈ entries,
        (∀ e2 ∈ entries, stringGreater e2.Name e.Name = false)
        ∧ GetLatestPlanDescription os unmarshal g
            = (match os.readFile (Join g.DescriptionsSubdir e.Name) with
               | .error err => .error ("error reading latest description file: " ++ err)
               | .ok bytes =>
                 match unmarshal bytes with
                 | .error err =>
                   .error ("error unmarshalling latest description file: " ++ err)
                 | .ok description => .ok description))
      ∧ ∀ (os2 : OS) (entries2 : List DirEntry),
          os2.readFile = os.readFile → os2.readDir g.DescriptionsSubdir = .ok entries2 →
          entries2.Perm entries →
          GetLatestPlanDescription os2 unmarshal g = GetLatestPlanDescription os unmarshal g := by
  obtain ⟨e, e1, e2, e3⟩ := latestLoop_greatest entries hne
  constructor
  · refine ⟨e, e2, e3, ?_⟩
    simp only [GetLatestPlanDescription, hdir, e1]
  · intro os2 entries2 hrf hdir2 hperm
    have hne2 : entries2 ≠ [] := by
      intro h
      rw [h] at hperm
      exact hne (List.Perm.nil_eq hperm).symm
    obtain ⟨f, f1, f2, f3⟩ := latestLoop_greatest entries2 hne2
    have hname : f.Name = e.Name := by
      have h1 := e3 f (hperm.subset f2)
      have h2 := f3 e (hperm.symm.subset e2)
      have := bytesLess_total _ _ h2 h1
      exact String.ext this
    simp only [GetLatestPlanDescription, hdir, hdir2, e1, f1, hrf, hname]

/-- C7, the example of the specification: with `2024-01-01T00-00-00.json` and
`2024-02-01T00-00-00.json` in the directory, the February file is the one read, in
whichever order the two are listed. -/
theorem GetLatestPlanDescription_greatest_witness :
    GetLatestPlanDescription
        (descriptionsOS ["2024-01-01T00-00-00.json", "2024-02-01T00-00-00.json"])
        (fun bytes => Except.ok bytes) { zeroGlobals with DescriptionsSubdir := "descriptions" }
      = .ok "descriptions/2024-02-01T00-00-00.json"
    ∧ GetLatestPlanDescription
        (descriptionsOS ["2024-02-01T00-00-00.json", "2024-01-01T00-00-00.json"])
        (fun bytes => Except.ok bytes) { zeroGlobals with DescriptionsSubdir := "descriptions" }
      = .ok "descriptions/2024-02-01T00-00-00.json"
    ∧ ∃ e ∈ [({ Name := "2024-01-01T00-00-00.json", IsDir := false } : DirEntry),
              { Name := "2024-02-01T00-00-00.json", IsDir := false }],
        ∀ e2 ∈ [({ Name := "2024-01-01T00-00-00.json", IsDir := false } : DirEntry),
                { Name := "2024-02-01T00-00-00.json", IsDir := false }],
          stringGreater e2.Name e.Name = false :=
  ⟨by decide, by decide,
    (GetLatestPlanDescription_greatest
      (descriptionsOS ["2024-01-01T00-00-00.json", "2024-02-01T00-00-00.json"])
      (fun bytes => Except.ok bytes) { zeroGlobals with DescriptionsSubdir := "descriptions" }
      [{ Name := "2024-01-01T00-00-00.json", IsDir := false },
       { Name := "2024-02-01T00-00-00.json", IsDir := false }] rfl (by decide)).1.imp
      (fun _ h => ⟨h.1, h.2.1⟩)⟩

/-- C6 fails on the code: on an empty listing `GetLatestPlanDescription` does not
return an error; the call `latestFile.Name()` on the nil entry panics. -/
theorem GetLatestPlanDescription_empty_panics :
    GetLatestPlanDescription (descriptionsOS []) (fun bytes => Except.ok bytes)
        { zeroGlobals with DescriptionsSubdir := "descriptions" }
      = .panic "runtime error: invalid memory address or nil pointer dereference" := by
  rfl

/-! ## `ParseInputPaths`: one goroutine step -/

theorem walkFn_firstErr (params : LoadContextParams) (path : String) (info : FileInfo)
    (err : Option String) (s : Shared) :
    (walkFn params path info err s).2.firstErr = s.firstErr := by
  unfold walkFn
  cases err with
  | some e => rfl
  | none =>
    cases hfe : s.firstErr with
    | some e => simp [hfe]
    | none =>
      simp only
      split_ifs <;> simp [hfe]

theorem walkFn_of_none (params : LoadContextParams) (path : String) (info : FileInfo)
    (err : Option String) (s : Shared) (h : s.firstErr = none) :
    (walkFn params path info err s).1 = (walkFn params path info err ⟨none, []⟩).1
      ∧ (walkFn params path info err s).2.resPaths
          = s.resPaths ++ (walkFn params path info err ⟨none, []⟩).2.resPaths := by
  unfold walkFn
  cases err with
  | some e => simp
  | none =>
    simp only [h]
    split_ifs <;> simp

theorem walkFn_of_some (params : LoadContextParams) (path : String) (info : FileInfo)
    (err : Option String) (s : Shared) (e0 : String) (h : s.firstErr = some e0) :
    ∃ e, walkFn params path info err s = (some (.err e), s) := by
  unfold walkFn
  cases err with
  | some e => exact ⟨e, rfl⟩
  | none => exact ⟨e0, by simp [h]⟩

theorem visit_firstErr (params : LoadContextParams) (path : String) (n : Node) (s : Shared) :
    (visit params path n s).2.firstErr = s.firstErr := by
  cases n <;> exact walkFn_firstErr _ _ _ _ _

theorem visit_of_none (params : LoadContextParams) (path : String) (n : Node) (s : Shared)
    (h : s.firstErr = none) :
    (visit params path n s).1 = (visit params path n ⟨none, []⟩).1
      ∧ (visit params path n s).2.resPaths
          = s.resPaths ++ (visit params path n ⟨none, []⟩).2.resPaths := by
  cases n <;> exact walkFn_of_none _ _ _ _ _ h

theorem visit_of_some (params : LoadContextParams) (path : String) (n : Node) (s : Shared)
    (e0 : String) (h : s.firstErr = some e0) :
    ∃ e, visit params path n s = (some (.err e), s) := by
  cases n <;> simp only [visit] <;> exact walkFn_of_some _ _ _ _ _ e0 h

theorem walkAloneList_eq_frame (params : LoadContextParams) (path : String) :
    ∀ cs : List Node,
      walkAlone.walkAloneList params path cs = walkAloneFrame params (childFrame path cs) := by
  intro cs
  induction cs with
  | nil => simp [walkAlone.walkAloneList, walkAloneFrame, childFrame]
  | cons c cs ih =>
    simp only [childFrame, List.map_cons] at ih ⊢
    simp only [walkAlone.walkAloneList, walkAloneFrame, ih]

/-- A file or a failing entry is done with in one call of the callback. -/
theorem walkAlone_leaf (params : LoadContextParams) (path : String) (n : Node)
    (h : ∀ name cs, n ≠ .dir name cs) :
    walkAlone params path n
      = ((visit params path n ⟨none, []⟩).1, (visit params path n ⟨none, []⟩).2.resPaths) := by
  cases n with
  | file name => simp [walkAlone]
  | dir name cs => exact absurd rfl (h name cs)
  | unreadableDir name e => simp [walkAlone, visit, walkFn]
  | lstatFail name e => simp [walkAlone, visit, walkFn]

/-- While `firstErr` is nil a step of a goroutine is a step of its walk taken by itself:
the outcome of the walk stays the same, the paths recorded so far together with those
still to come stay the same, and `firstErr` is set only by the final step of a walk
that ended with an error. -/
theorem stepThread_of_none (params : LoadContextParams) (t : Thread) (s : Shared)
    (h : s.firstErr = none) :
    (stepThread params t s).1.outcome params = t.outcome params
      ∧ (stepThread params t s).2.resPaths ++ (stepThread params t s).1.pending params
          = s.resPaths ++ t.pending params
      ∧ (stepThread params t s).2.firstErr
          = (match t with
             | .returned (some e) => some e
             | _ => none) := by
  match t with
  | .done e => simp [stepThread, h]
  | .returned none => simp [stepThread, h, Thread.outcome, Thread.pending]
  | .returned (some e) => simp [stepThread, h, Thread.outcome, Thread.pending]
  | .walking [] =>
    simp [stepThread, h, Thread.outcome, Thread.pending, walkAloneStack]
  | .walking ([] :: rest) =>
    simp [stepThread, h, Thread.outcome, Thread.pending, walkAloneStack, walkAloneFrame]
  | .walking (((p, n) :: more) :: rest) =>
    obtain ⟨v1, v2⟩ := visit_of_none params p n s h
    have v3 := visit_firstErr params p n s
    rw [h] at v3
    rcases hv : visit params p n s with ⟨r, s1⟩
    rw [hv] at v1 v2 v3
    simp only at v1 v2 v3
    cases n with
    | dir name cs =>
      cases r with
      | none =>
        have hw : walkAlone params p (.dir name cs)
            = ((walkAloneFrame params (childFrame p cs)).1,
                (visit params p (.dir name cs) ⟨none, []⟩).2.resPaths
                  ++ (walkAloneFrame params (childFrame p cs)).2) := by
          simp only [walkAlone, ← v1, walkAloneList_eq_frame]
        simp only [stepThread, hv, Thread.outcome, Thread.pending, walkAloneStack,
          walkAloneFrame, hw, v2, v3]
        rcases hcf : (walkAloneFrame params (childFrame p cs)).1 with _ | (_ | e)
        · rcases hmf : (walkAloneFrame params more).1 with _ | (_ | e2) <;>
            simp [Node.isDir, hmf, List.append_assoc]
        · rcases hmf : (walkAloneFrame params more).1 with _ | (_ | e2) <;>
            simp [Node.isDir, hmf, List.append_assoc]
        · simp [List.append_assoc]
      | some x =>
        have hw : walkAlone params p (.dir name cs)
            = (some x, (visit params p (.dir name cs) ⟨none, []⟩).2.resPaths) := by
          simp only [walkAlone, ← v1]
        cases x with
        | skipDir =>
          simp only [stepThread, hv, Thread.outcome, Thread.pending, walkAloneStack,
            walkAloneFrame, hw, v2, v3, Node.isDir, Bool.true_or, if_true]
          rcases hmf : (walkAloneFrame params more).1 with _ | (_ | e2) <;>
            simp [hmf, List.append_assoc]
        | err e =>
          simp [stepThread, hv, Thread.outcome, Thread.pending, walkAloneStack,
            walkAloneFrame, hw, v2, v3]
    | file name =>
      have hw := walkAlone_leaf params p (.file name) (by intro _ _ hh; cases hh)
      rw [← v1] at hw
      cases r with
      | none =>
        simp only [stepThread, hv, Thread.outcome, Thread.pending, walkAloneStack,
          walkAloneFrame, hw, v2, v3]
        rcases hmf : (walkAloneFrame params more).1 with _ | (_ | e2) <;>
          simp [hmf, List.append_assoc]
      | some x =>
        cases x with
        | skipDir =>
          simp [stepThread, hv, Thread.outcome, Thread.pending, walkAloneStack,
            walkAloneFrame, hw, v2, v3, Node.isDir, List.append_assoc]
        | err e =>
          simp [stepThread, hv, Thread.outcome, Thread.pending, walkAloneStack,
            walkAloneFrame, hw, v2, v3]
    | unreadableDir name e0 =>
      have hw := walkAlone_leaf params p (.unreadableDir name e0) (by intro _ _ hh; cases hh)
      rw [← v1] at hw
      cases r with
      | none =>
        simp only [stepThread, hv, Thread.outcome, Thread.pending, walkAloneStack,
          walkAloneFrame, hw, v2, v3]
        rcases hmf : (walkAloneFrame params more).1 with _ | (_ | e2) <;>
          simp [hmf, List.append_assoc]
      | some x =>
        cases x with
        | skipDir =>
          simp only [stepThread, hv, Thread.outcome, Thread.pending, walkAloneStack,
            walkAloneFrame, hw, v2, v3, Node.isDir, Bool.true_or, if_true]
          rcases hmf : (walkAloneFrame params more).1 with _ | (_ | e2) <;>
            simp [hmf, List.append_assoc]
        | err e =>
          simp [stepThread, hv, Thread.outcome, Thread.pending, walkAloneStack,
            walkAloneFrame, hw, v2, v3]
    | lstatFail name e0 =>
      have hw := walkAlone_leaf params p (.lstatFail name e0) (by intro _ _ hh; cases hh)
      rw [← v1] at hw
      cases r with
      | none =>
        simp only [stepThread, hv, Thread.outcome, Thread.pending, walkAloneStack,
          walkAloneFrame, hw, v2, v3]
        rcases hmf : (walkAloneFrame params more).1 with _ | (_ | e2) <;>
          simp [hmf, List.append_assoc]
      | some x =>
        cases x with
        | skipDir =>
          simp only [stepThread, hv, Thread.outcome, Thread.pending, walkAloneStack,
            walkAloneFrame, hw, v2, v3, Node.isDir, Bool.false_or, if_true]
          rcases hmf : (walkAloneFrame params more).1 with _ | (_ | e2) <;>
            simp [hmf, List.append_assoc]
        | err e =>
          simp [stepThread, hv, Thread.outcome, Thread.pending, walkAloneStack,
            walkAloneFrame, hw, v2, v3]

/-- Once `firstErr` is set a step changes nothing shared, and a walk that was going to
end with an error still does: its next call of the callback returns one. -/
theorem stepThread_of_some (params : LoadContextParams) (t : Thread) (s : Shared)
    (e0 : String) (h : s.firstErr = some e0) :
    (stepThread params t s).2 = s
      ∧ ((t.outcome params).isSome = true →
          ((stepThread params t s).1.outcome params).isSome = true) := by
  match t with
  | .done e => simp [stepThread]
  | .returned none => simp [stepThread, Thread.outcome]
  | .returned (some e) => simp [stepThread, h, Thread.outcome]
  | .walking [] => simp [stepThread, Thread.outcome, walkAloneStack]
  | .walking ([] :: rest) =>
    simp [stepThread, Thread.outcome, walkAloneStack, walkAloneFrame]
  | .walking (((p, n) :: more) :: rest) =>
    obtain ⟨e, he⟩ := visit_of_some params p n s e0 h
    simp [stepThread, he, Thread.outcome]

theorem stepThread_done (params : LoadContextParams) (t : Thread) (s : Shared) (e : String)
    (h : (stepThread params t s).1 = .done (some e)) :
    t = .done (some e) ∨ t = .returned (some e) := by
  match t with
  | .done e1 => simp [stepThread] at h; simp [h]
  | .returned e1 => simp [stepThread] at h; simp [h]
  | .walking [] => simp [stepThread] at h
  | .walking ([] :: rest) => simp [stepThread] at h
  | .walking (((p, n) :: more) :: rest) =>
    simp only [stepThread] at h
    rcases hv : visit params p n s with ⟨r, s1⟩
    rw [hv] at h
    rcases r with _ | (_ | e2)
    · cases n <;> simp at h
    · simp only at h
      split_ifs at h
    · simp at h

theorem set_decomp {α : Type} (l : List α) (i : Nat) (t t2 : α) (h : l[i]? = some t) :
    ∃ l1 l2, l = l1 ++ t :: l2 ∧ l.set i t2 = l1 ++ t2 :: l2 := by
  induction l generalizing i with
  | nil => simp at h
  | cons a l ih =>
    cases i with
    | zero =>
      simp only [List.getElem?_cons_zero, Option.some.injEq] at h
      subst h
      exact ⟨[], l, rfl, rfl⟩
    | succ k =>
      simp only [List.getElem?_cons_succ] at h
      obtain ⟨l1, l2, h1, h2⟩ := ih k h
      exact ⟨a :: l1, l2, by simp [h1], by simp [h2]⟩

theorem run_induction (params : LoadContextParams) (P : State → Prop)
    (hstep : ∀ st i, P st → P (step params i st)) :
    ∀ (sched : List Nat) (st0 : State), P st0 → P (run params sched st0) := by
  intro sched
  induction sched with
  | nil => intro st0 h; exact h
  | cons i sched ih =>
    intro st0 h
    exact ih (step params i st0) (hstep st0 i h)

theorem pending_perm (r r2 p p2 : List String) (l1 l2 : List (List String))
    (h : r2 ++ p2 = r ++ p) :
    (r2 ++ (l1.flatten ++ (p2 ++ l2.flatten))).Perm (r ++ (l1.flatten ++ (p ++ l2.flatten))) := by
  have e1 : (r2 ++ (l1.flatten ++ (p2 ++ l2.flatten))).Perm
      (l1.flatten ++ ((r2 ++ p2) ++ l2.flatten)) := by
    rw [← List.append_assoc, ← List.append_assoc, List.append_assoc]
    refine List.Perm.trans (List.Perm.append_right _ List.perm_append_comm) ?_
    simp [List.append_assoc]
  have e2 : (r ++ (l1.flatten ++ (p ++ l2.flatten))).Perm
      (l1.flatten ++ ((r ++ p) ++ l2.flatten)) := by
    rw [← List.append_assoc, ← List.append_assoc, List.append_assoc]
    refine List.Perm.trans (List.Perm.append_right _ List.perm_append_comm) ?_
    simp [List.append_assoc]
  rw [h] at e1
  exact e1.trans e2.symm

/-- The invariant is kept by every step of every goroutine. -/
theorem Inv_step (params : LoadContextParams) (st0 st : State) (i : Nat)
    (hinv : Inv params st0 st) : Inv params st0 (step params i st) := by
  obtain ⟨i0, i1, i2, i3, i4, i5⟩ := hinv
  unfold step
  cases hti : st.threads[i]? with
  | none => exact ⟨i0, i1, i2, i3, i4, i5⟩
  | some t =>
    have hil : i < st.threads.length := by
      by_contra hc
      rw [List.getElem?_eq_none (by omega)] at hti
      cases hti
    have hget : ∀ (t2 : Thread) (j : Nat),
        (st.threads.set i t2)[j]? = if i = j then some t2 else st.threads[j]? := by
      intro t2 j
      rw [List.getElem?_set]
      by_cases hij : i = j
      · subst hij
        simp [hil]
      · simp [hij]
    cases hfe : st.shared.firstErr with
    | none =>
      obtain ⟨o, pp, fe⟩ := stepThread_of_none params t st.shared hfe
      refine ⟨by simp [i0], ?_, ?_, ?_, ?_, ?_⟩
      · intro e he
        simp only at he
        rw [fe] at he
        refine ⟨i, ?_⟩
        simp only [hget, if_true]
        match t, he with
        | .returned (some e1), he =>
          simp only [Option.some.injEq] at he
          subst he
          simp [stepThread]
      · intro hnone j e hj
        simp only [hget] at hj
        simp only at hnone
        split_ifs at hj with hij
        · simp only [Option.some.injEq] at hj
          rcases stepThread_done params t st.shared e hj with ht | ht
          · exact i2 hfe i e (by rw [hti, ht])
          · rw [fe, ht] at hnone
            simp at hnone
        · exact i2 hfe j e hj
      · intro j t0 t2 h0 h2 hs
        simp only [hget] at h2
        split_ifs at h2 with hij
        · simp only [Option.some.injEq] at h2
          subst h2
          rw [o]
          exact i3 j t0 t h0 (by rw [← hij, hti]) hs
        · exact i3 j t0 t2 h0 h2 hs
      · intro hnone
        obtain ⟨hp, ho⟩ := i4 hfe
        constructor
        · obtain ⟨l1, l2, d1, d2⟩ :=
            set_decomp st.threads i t (stepThread params t st.shared).1 hti
          refine List.Perm.trans ?_ hp
          simp only
          rw [d2, d1]
          simp only [List.flatMap_append, List.flatMap_cons]
          have := pending_perm st.shared.resPaths (stepThread params t st.shared).2.resPaths
            (t.pending params) ((stepThread params t st.shared).1.pending params)
            (l1.map (Thread.pending params)) (l2.map (Thread.pending params)) pp
          simpa [List.flatMap, List.flatten] using this
        · intro j t0 t2 h0 h2
          simp only [hget] at h2
          split_ifs at h2 with hij
          · simp only [Option.some.injEq] at h2
            subst h2
            rw [o]
            exact ho j t0 t h0 (by rw [← hij, hti])
          · exact ho j t0 t2 h0 h2
      · intro e he h0none
        simp only at he
        rw [fe] at he
        match t, he, hti with
        | .returned (some e1), he, hti =>
          simp only [Option.some.injEq] at he
          subst he
          have hi0 : i < st0.threads.length := by omega
          refine ⟨i, st0.threads[i], List.getElem?_eq_getElem hi0, ?_⟩
          rw [← (i4 hfe).2 i st0.threads[i] _ (List.getElem?_eq_getElem hi0) hti]
          rfl
    | some e0 =>
      obtain ⟨sh, os⟩ := stepThread_of_some params t st.shared e0 hfe
      refine ⟨by simp [i0], ?_, ?_, ?_, ?_, ?_⟩
      · intro e he
        simp only at he
        rw [sh, hfe] at he
        simp only [Option.some.injEq] at he
        subst he
        obtain ⟨j0, hj0⟩ := i1 e0 hfe
        refine ⟨j0, ?_⟩
        simp only [hget]
        split_ifs with hij
        · subst hij
          rw [hti] at hj0
          simp only [Option.some.injEq] at hj0
          subst hj0
          simp [stepThread]
        · exact hj0
      · intro hnone
        simp only at hnone
        rw [sh, hfe] at hnone
        cases hnone
      · intro j t0 t2 h0 h2 hs
        simp only [hget] at h2
        split_ifs at h2 with hij
        · simp only [Option.some.injEq] at h2
          subst h2
          exact os (i3 j t0 t h0 (by rw [← hij, hti]) hs)
        · exact i3 j t0 t2 h0 h2 hs
      · intro hnone
        simp only at hnone
        rw [sh, hfe] at hnone
        cases hnone
      · intro e he h0none
        simp only at he
        rw [sh] at he
        exact i5 e he h0none

theorem Inv_start (params : LoadContextParams) (fs : String → Node) (paths : List String) :
    Inv params (startState fs paths) (startState fs paths) := by
  refine ⟨rfl, ?_, ?_, ?_, ?_, ?_⟩
  · intro e he
    simp [startState] at he
  · intro _ j e hj
    simp only [startState, List.getElem?_map] at hj
    cases hp : paths[j]? with
    | none => simp [hp] at hj
    | some p => simp [hp] at hj
  · intro j t0 t h0 h hs
    rw [h0] at h
    simp only [Option.some.injEq] at h
    subst h
    exact hs
  · intro _
    refine ⟨List.Perm.refl _, ?_⟩
    intro j t0 t h0 h
    rw [h0] at h
    simp only [Option.some.injEq] at h
    subst h
    rfl
  · intro e he
    simp [startState] at he

theorem Inv_run (params : LoadContextParams) (fs : String → Node) (paths : List String)
    (sched : List Nat) :
    Inv params (startState fs paths) (run params sched (startState fs paths)) :=
  run_induction params (Inv params (startState fs paths))
    (fun st i h => Inv_step params _ st i h) sched _ (Inv_start params fs paths)

/-! ## `ParseInputPaths`: every goroutine finishes -/

theorem Node.size_pos (n : Node) : 1 ≤ n.size := by
  cases n with
  | dir name cs => simp only [Node.size]; omega
  | file name => simp [Node.size]
  | unreadableDir name e => simp [Node.size]
  | lstatFail name e => simp [Node.size]

theorem childFrame_size (p : String) (cs : List Node) :
    ((childFrame p cs).map (fun x => x.2.size)).sum = Node.size.sizeList cs := by
  induction cs with
  | nil => simp [childFrame, Node.size.sizeList]
  | cons c cs ih =>
    simp only [childFrame, List.map_cons, List.sum_cons, Node.size.sizeList] at ih ⊢
    rw [ih]

/-- Every step of a goroutine that is not done brings it nearer to being done. -/
theorem stepThread_measure (params : LoadContextParams) (t : Thread) (s : Shared)
    (h : t.isDone = false) : (stepThread params t s).1.measure < t.measure := by
  match t with
  | .done e => simp [Thread.isDone] at h
  | .returned e => simp [stepThread, Thread.measure]
  | .walking [] => simp [stepThread, Thread.measure]
  | .walking ([] :: rest) => simp [stepThread, Thread.measure]
  | .walking (((p, n) :: more) :: rest) =>
    have hn := Node.size_pos n
    simp only [stepThread]
    rcases hv : visit params p n s with ⟨r, s1⟩
    rcases r with _ | (_ | e)
    · cases n with
      | dir name cs =>
        simp only [Thread.measure, List.map_cons, List.sum_cons, childFrame_size, Node.size]
        omega
      | file name =>
        simp only [Thread.measure, List.map_cons, List.sum_cons, Node.size]
        omega
      | unreadableDir name e =>
        simp only [Thread.measure, List.map_cons, List.sum_cons, Node.size]
        omega
      | lstatFail name e =>
        simp only [Thread.measure, List.map_cons, List.sum_cons, Node.size]
        omega
    · simp only
      split_ifs
      · simp only [Thread.measure, List.map_cons, List.sum_cons]
        omega
      · simp only [Thread.measure, List.map_cons, List.sum_cons]
        omega
    · simp only [Thread.measure, List.map_cons, List.sum_cons]
      omega

theorem exists_not_done (l : List Thread) (h : l.all Thread.isDone = false) :
    ∃ (i : Nat) (t : Thread), l[i]? = some t ∧ t.isDone = false := by
  induction l with
  | nil => simp at h
  | cons a l ih =>
    by_cases ha : a.isDone = true
    · have : l.all Thread.isDone = false := by
        simp only [List.all_cons, ha, Bool.true_and] at h
        exact h
      obtain ⟨i, t, h1, h2⟩ := ih this
      exact ⟨i + 1, t, by rw [List.getElem?_cons_succ]; exact h1, h2⟩
    · exact ⟨0, a, List.getElem?_cons_zero, by simpa using ha⟩

/-- From every state some schedule brings all goroutines to their end: `wg.Wait()`
returns. -/
theorem exists_complete (params : LoadContextParams) :
    ∀ (n : Nat) (st : State), (st.threads.map Thread.measure).sum ≤ n →
      ∃ sched, (run params sched st).threads.all Thread.isDone = true := by
  intro n
  induction n with
  | zero =>
    intro st h
    refine ⟨[], ?_⟩
    by_contra hc
    have hc2 : st.threads.all Thread.isDone = false := by simpa [run] using hc
    obtain ⟨i, t, h1, h2⟩ := exists_not_done _ hc2
    obtain ⟨l1, l2, d1, _⟩ := set_decomp st.threads i t t h1
    rw [d1] at h
    have : 1 ≤ t.measure := by
      cases t with
      | walking stack => simp only [Thread.measure]; omega
      | returned e => simp [Thread.measure]
      | done e => simp [Thread.isDone] at h2
    simp only [List.map_append, List.map_cons, List.sum_append, List.sum_cons] at h
    omega
  | succ n ih =>
    intro st h
    by_cases hall : st.threads.all Thread.isDone = true
    · exact ⟨[], by simpa [run] using hall⟩
    · have hc2 : st.threads.all Thread.isDone = false := by simpa using hall
      obtain ⟨i, t, h1, h2⟩ := exists_not_done _ hc2
      obtain ⟨l1, l2, d1, d2⟩ :=
        set_decomp st.threads i t (stepThread params t st.shared).1 h1
      have hm := stepThread_measure params t st.shared h2
      have hstep : ((step params i st).threads.map Thread.measure).sum ≤ n := by
        simp only [step, h1, d2]
        rw [d1] at h
        simp only [List.map_append, List.map_cons, List.sum_append, List.sum_cons] at h ⊢
        omega
      obtain ⟨sched, hs⟩ := ih (step params i st) hstep
      exact ⟨i :: sched, by simpa [run] using hs⟩

/-! ## The walk of a tree taken by itself -/

mutual
theorem entries_inside (params : LoadContextParams) :
    ∀ (T : Node) (path : String),
      ((T.entries path true).filter (Entry.included params)).map Entry.path = []
  | .file name, path => by simp [Node.entries, Entry.included]
  | .dir name cs, path => by
    have := entriesList_inside params cs path
    simp only [Node.entries, Bool.true_or, List.filter_cons, Entry.included, Bool.not_true,
      Bool.false_and, Bool.false_eq_true, if_false]
    exact this
  | .unreadableDir name e, path => by simp [Node.entries, Entry.included]
  | .lstatFail name e, path => by simp [Node.entries]
theorem entriesList_inside (params : LoadContextParams) :
    ∀ (cs : List Node) (path : String),
      ((Node.entries.entriesList path true cs).filter (Entry.included params)).map Entry.path = []
  | [], path => by simp [Node.entries.entriesList]
  | c :: cs, path => by
    have h1 := entries_inside params c (Join path c.name)
    have h2 := entriesList_inside params cs path
    simp only [Node.entries.entriesList, List.filter_append, List.map_append, h1, h2,
      List.append_nil]
end

mutual
/-- On a tree in which everything the walk reaches can be inspected and listed, with
`Recursive` or `NamesOnly` set, the walk taken by itself returns no error and records
exactly the included entries, in order. -/
theorem walkAlone_walkable (params : LoadContextParams)
    (hpol : (params.Recursive || params.NamesOnly) = true) :
    ∀ (T : Node) (path : String), T.walkable = true →
      (walkAlone params path T).1
          = (if T.isDir && isSkipName T.name then some .skipDir else none)
        ∧ (walkAlone params path T).2
            = ((T.entries path false).filter (Entry.included params)).map Entry.path
  | .file name, path, _ => by
    simp [walkAlone, visit, walkFn, Node.isDir, Node.entries, Entry.included]
  | .dir name cs, path, h => by
    by_cases hskip : isSkipName name = true
    · have hv : visit params path (.dir name cs) ⟨none, []⟩ = (some .skipDir, ⟨none, []⟩) := by
        simp only [isSkipName] at hskip
        simp [visit, walkFn, hskip]
      have hin := entriesList_inside params cs path
      simp only [walkAlone, hv, Node.isDir, Node.name, hskip, Bool.and_self, if_true,
        Node.entries, Bool.false_or, List.filter_cons, Entry.included, Bool.not_false,
        Bool.not_true, Bool.and_false, Bool.or_false, Bool.true_and, Bool.false_eq_true,
        if_false, hin, and_self]
    · have hskip2 : isSkipName name = false := by simpa using hskip
      have hcs : Node.walkable.walkableList cs = true := by
        simpa [Node.walkable, hskip2] using h
      obtain ⟨l1, l2⟩ := walkAloneList_walkable params hpol cs path hcs
      have hv : visit params path (.dir name cs) ⟨none, []⟩
          = (none, ⟨none, if params.NamesOnly then [path] else []⟩) := by
        simp only [isSkipName] at hskip2
        simp only [visit, walkFn, hskip2, hpol]
        by_cases hn : params.NamesOnly = true <;> simp [hn]
      simp only [walkAlone, hv, Node.isDir, Node.name, hskip2, Bool.and_false,
        Bool.false_eq_true, if_false, l1, l2, Node.entries, Bool.or_false, List.filter_cons,
        Entry.included, Bool.not_false, Bool.not_true, Bool.false_or, Bool.true_and,
        Bool.and_true, true_and]
      by_cases hn : params.NamesOnly = true <;> simp [hn]
  | .unreadableDir name e, path, h => by simp [Node.walkable] at h
  | .lstatFail name e, path, h => by simp [Node.walkable] at h
theorem walkAloneList_walkable (params : LoadContextParams)
    (hpol : (params.Recursive || params.NamesOnly) = true) :
    ∀ (cs : List Node) (path : String), Node.walkable.walkableList cs = true →
      (walkAlone.walkAloneList params path cs).1 = none
        ∧ (walkAlone.walkAloneList params path cs).2
            = ((Node.entries.entriesList path false cs).filter (Entry.included params)).map
                Entry.path
  | [], path, _ => by simp [walkAlone.walkAloneList, Node.entries.entriesList]
  | c :: cs, path, h => by
    have hc : c.walkable = true ∧ Node.walkable.walkableList cs = true := by
      simpa [Node.walkable.walkableList] using h
    obtain ⟨c1, c2⟩ := walkAlone_walkable params hpol c (Join path c.name) hc.1
    obtain ⟨l1, l2⟩ := walkAloneList_walkable params hpol cs path hc.2
    by_cases hs : (c.isDir && isSkipName c.name) = true
    · rw [if_pos hs] at c1
      have hd : c.isDir = true := by
        simp only [Bool.and_eq_true] at hs
        exact hs.1
      simp only [walkAlone.walkAloneList, c1, hd, Bool.true_or, if_true, l1, l2, c2,
        Node.entries.entriesList, List.filter_append, List.map_append, and_self]
    · rw [if_neg hs] at c1
      simp only [walkAlone.walkAloneList, c1, l1, l2, c2,
        Node.entries.entriesList, List.filter_append, List.map_append, and_self]
end

/-- The walk of a root at which everything reached can be inspected and listed, taken
by itself, ends without error and records the included entries of the tree. -/
theorem WalkAlone_walkable (fs : String → Node) (params : LoadContextParams) (p : String)
    (hpol : (params.Recursive || params.NamesOnly) = true) (hwalk : (fs p).walkable = true) :
    WalkAlone fs params p
      = (none, (((fs p).entries p false).filter (Entry.included params)).map Entry.path) := by
  obtain ⟨c1, c2⟩ := walkAlone_walkable params hpol (fs p) p hwalk
  by_cases hs : ((fs p).isDir && isSkipName (fs p).name) = true
  · rw [if_pos hs] at c1
    have hd : (fs p).isDir = true := by
      simp only [Bool.and_eq_true] at hs
      exact hs.1
    simp [WalkAlone, walkAloneStack, walkAloneFrame, c1, c2, hd]
  · rw [if_neg hs] at c1
    simp [WalkAlone, walkAloneStack, walkAloneFrame, c1, c2]

/-- Only a directory makes the walk return `SkipDir`. -/
theorem walkAlone_skipDir (params : LoadContextParams) (path : String) (T : Node)
    (h : (walkAlone params path T).1 = some .skipDir) : T.isDir = true := by
  cases T with
  | file name => simp [walkAlone, visit, walkFn] at h
  | dir name cs => rfl
  | unreadableDir name e => rfl
  | lstatFail name e => simp [walkAlone, visit, walkFn] at h

mutual
/-- On a tree in which the walk reaches an entry that cannot be inspected or a
directory that cannot be listed, the walk taken by itself returns an error. -/
theorem walkAlone_not_walkable (params : LoadContextParams) :
    ∀ (T : Node) (path : String), T.walkable = false →
      ∃ e, (walkAlone params path T).1 = some (.err e)
  | .file name, path, h => by simp [Node.walkable] at h
  | .dir name cs, path, h => by
    have hh : isSkipName name = false ∧ Node.walkable.walkableList cs = false := by
      simpa [Node.walkable] using h
    obtain ⟨e, he⟩ := walkAloneList_not_walkable params cs path hh.2
    cases hv : (visit params path (.dir name cs) ⟨none, []⟩).1 with
    | none => exact ⟨e, by simp only [walkAlone, hv, he]⟩
    | some w =>
      cases w with
      | err e2 => exact ⟨e2, by simp only [walkAlone, hv]⟩
      | skipDir =>
        exfalso
        have h1 := hh.1
        simp only [isSkipName] at h1
        obtain ⟨r, n⟩ := params
        cases r <;> cases n <;> simp [visit, walkFn, h1] at hv
  | .unreadableDir name e, path, _ => ⟨e, by simp [walkAlone, visit, walkFn]⟩
  | .lstatFail name e, path, _ => ⟨e, by simp [walkAlone, visit, walkFn]⟩
theorem walkAloneList_not_walkable (params : LoadContextParams) :
    ∀ (cs : List Node) (path : String), Node.walkable.walkableList cs = false →
      ∃ e, (walkAlone.walkAloneList params path cs).1 = some (.err e)
  | [], path, h => by simp [Node.walkable.walkableList] at h
  | c :: cs, path, h => by
    cases hc : (walkAlone params (Join path c.name) c).1 with
    | none =>
      have hcw : c.walkable = true := by
        by_contra hcon
        have hcf : c.walkable = false := by simpa using hcon
        obtain ⟨e, he⟩ := walkAlone_not_walkable params c (Join path c.name) hcf
        rw [hc] at he
        cases he
      have hcs : Node.walkable.walkableList cs = false := by
        simpa [Node.walkable.walkableList, hcw] using h
      obtain ⟨e, he⟩ := walkAloneList_not_walkable params cs path hcs
      exact ⟨e, by simp only [walkAlone.walkAloneList, hc, he]⟩
    | some w =>
      cases w with
      | err e => exact ⟨e, by simp only [walkAlone.walkAloneList, hc]⟩
      | skipDir =>
        have hd := walkAlone_skipDir params _ c hc
        have hcw : c.walkable = true := by
          by_contra hcon
          have hcf : c.walkable = false := by simpa using hcon
          obtain ⟨e, he⟩ := walkAlone_not_walkable params c (Join path c.name) hcf
          rw [hc] at he
          cases he
        have hcs : Node.walkable.walkableList cs = false := by
          simpa [Node.walkable.walkableList, hcw] using h
        obtain ⟨e, he⟩ := walkAloneList_not_walkable params cs path hcs
        exact ⟨e, by simp only [walkAlone.walkAloneList, hc, hd, Bool.true_or, if_true, he]⟩
end

/-- The walk of a root at which something reached cannot be inspected or listed, taken
by itself, ends with an error. -/
theorem WalkAlone_not_walkable (fs : String → Node) (params : LoadContextParams)
    (p : String) (hwalk : (fs p).walkable = false) :
    ∃ e, (WalkAlone fs params p).1 = some e := by
  obtain ⟨e, he⟩ := walkAlone_not_walkable params (fs p) p hwalk
  exact ⟨e, by simp [WalkAlone, walkAloneStack, walkAloneFrame, he]⟩

/-! ## `ParseInputPaths`: the result -/

theorem startState_get (fs : String → Node) (paths : List String) (j : Nat) :
    (startState fs paths).threads[j]? = (paths[j]?).map (fun p => Thread.walking [[(p, fs p)]]) := by
  simp [startState, List.getElem?_map]

theorem startState_pending (fs : String → Node) (params : LoadContextParams)
    (paths : List String) :
    (startState fs paths).shared.resPaths
        ++ (startState fs paths).threads.flatMap (Thread.pending params)
      = paths.flatMap (fun p => (WalkAlone fs params p).2) := by
  simp only [startState, List.nil_append]
  induction paths with
  | nil => rfl
  | cons p ps ih =>
    simp only [List.map_cons, List.flatMap_cons, ih]
    rfl

theorem pending_of_all_done (params : LoadContextParams) (l : List Thread)
    (h : l.all Thread.isDone = true) : l.flatMap (Thread.pending params) = [] := by
  induction l with
  | nil => rfl
  | cons t l ih =>
    simp only [List.all_cons, Bool.and_eq_true] at h
    simp only [List.flatMap_cons, ih h.2, List.append_nil]
    cases t with
    | done e => rfl
    | returned e => simp [Thread.isDone] at h
    | walking stack => simp [Thread.isDone] at h

/-- What a returned result says about the final state: every goroutine is done, the
invariant holds, and the result is read off `firstErr` and `resPaths`. -/
theorem ParseInputPaths_final (fs : String → Node) (paths : List String)
    (params : LoadContextParams) (sched : List Nat)
    (r : Option (List String) × Option String)
    (h : ParseInputPaths fs paths params sched = some r) :
    (run params sched (startState fs paths)).threads.all Thread.isDone = true
      ∧ Inv params (startState fs paths) (run params sched (startState fs paths))
      ∧ (∀ e, (run params sched (startState fs paths)).shared.firstErr = some e →
          r = (none, some e))
      ∧ ((run params sched (startState fs paths)).shared.firstErr = none →
          r = (some (run params sched (startState fs paths)).shared.resPaths, none)) := by
  unfold ParseInputPaths at h
  simp only at h
  split_ifs at h with hall
  refine ⟨hall, Inv_run params fs paths sched, ?_, ?_⟩
  · intro e he
    rw [he] at h
    simp only [Option.some.injEq] at h
    exact h.symm
  · intro he
    rw [he] at h
    simp only [Option.some.injEq] at h
    exact h.symm

theorem done_of_all_done (l : List Thread) (h : l.all Thread.isDone = true) (j : Nat)
    (t : Thread) (ht : l[j]? = some t) : ∃ e, t = Thread.done e := by
  have hm : t ∈ l := List.getElem?_mem ht
  have := (List.all_eq_true.mp h) t hm
  cases t with
  | done e => exact ⟨e, rfl⟩
  | returned e => simp [Thread.isDone] at this
  | walking stack => simp [Thread.isDone] at this

/-- The returned error is the error with which the walk of one of the roots ends when
taken by itself. -/
theorem firstErr_is_walk_error (fs : String → Node) (paths : List String)
    (params : LoadContextParams) (st : State) (hinv : Inv params (startState fs paths) st)
    (e : String) (he : st.shared.firstErr = some e) :
    ∃ p ∈ paths, (WalkAlone fs params p).1 = some e := by
  obtain ⟨_, _, _, _, _, i5⟩ := hinv
  obtain ⟨j, t0, h0, ho⟩ := i5 e he rfl
  rw [startState_get] at h0
  cases hp : paths[j]? with
  | none => simp [hp] at h0
  | some p =>
    simp only [hp, Option.map_some', Option.some.injEq] at h0
    subst h0
    exact ⟨p, List.getElem?_mem hp, ho⟩

/-- When the walk of a root ends with an error by itself, `firstErr` is set once all
goroutines are done. -/
theorem firstErr_of_failing_root (fs : String → Node) (paths : List String)
    (params : LoadContextParams) (st : State) (hinv : Inv params (startState fs paths) st)
    (hall : st.threads.all Thread.isDone = true) (p : String) (hp : p ∈ paths)
    (hfail : (WalkAlone fs params p).1 ≠ none) :
    st.shared.firstErr ≠ none := by
  obtain ⟨i0, _, i2, i3, _, _⟩ := hinv
  obtain ⟨j, hj⟩ := List.getElem?_of_mem hp
  have hjl : j < st.threads.length := by
    rw [i0]
    simp only [startState, List.length_map]
    by_contra hc
    rw [List.getElem?_eq_none (by omega)] at hj
    cases hj
  obtain ⟨e, het⟩ := done_of_all_done st.threads hall j st.threads[j]
    (List.getElem?_eq_getElem hjl)
  have h3 := i3 j (Thread.walking [[(p, fs p)]]) st.threads[j]
    (by rw [startState_get, hj]; rfl) (List.getElem?_eq_getElem hjl)
    (by
      have : Thread.outcome params (Thread.walking [[(p, fs p)]]) = (WalkAlone fs params p).1 := rfl
      rw [this]
      cases hw : (WalkAlone fs params p).1 with
      | none => exact absurd hw hfail
      | some x => rfl)
  rw [het] at h3
  intro hnone
  cases e with
  | none => simp [Thread.outcome] at h3
  | some e1 =>
    exact i2 hnone j e1 (by rw [List.getElem?_eq_getElem hjl, het])

/-- Without an error the returned list is made up of what the walks of the roots record
by themselves. -/
theorem resPaths_perm (fs : String → Node) (paths : List String)
    (params : LoadContextParams) (st : State) (hinv : Inv params (startState fs paths) st)
    (hall : st.threads.all Thread.isDone = true) (hnone : st.shared.firstErr = none) :
    st.shared.resPaths.Perm (paths.flatMap (fun p => (WalkAlone fs params p).2)) := by
  obtain ⟨_, _, _, _, i4, _⟩ := hinv
  have := (i4 hnone).1
  rw [pending_of_all_done params _ hall, List.append_nil, startState_pending] at this
  exact this

/-- With a single root the paths are recorded in the order of its walk: as long as
`firstErr` is nil, what has been recorded followed by what is still to come is what
the walk records by itself. -/
theorem single_root_order (fs : String → Node) (params : LoadContextParams) (p : String)
    (sched : List Nat) :
    ∃ t, (run params sched (startState fs [p])).threads = [t]
      ∧ ((run params sched (startState fs [p])).shared.firstErr = none →
          (run params sched (startState fs [p])).shared.resPaths ++ t.pending params
            = (WalkAlone fs params p).2) := by
  apply run_induction params
    (fun st => ∃ t, st.threads = [t]
      ∧ (st.shared.firstErr = none →
          st.shared.resPaths ++ t.pending params = (WalkAlone fs params p).2))
  · rintro st i ⟨t, ht, hp⟩
    cases i with
    | zero =>
      refine ⟨(stepThread params t st.shared).1, by simp [step, ht], ?_⟩
      intro hnone
      simp only [step, ht, List.getElem?_cons_zero] at hnone ⊢
      cases hfe : st.shared.firstErr with
      | none =>
        obtain ⟨_, pp, _⟩ := stepThread_of_none params t st.shared hfe
        rw [pp]
        exact hp hfe
      | some e0 =>
        obtain ⟨sh, _⟩ := stepThread_of_some params t st.shared e0 hfe
        rw [sh, hfe] at hnone
        cases hnone
    | succ k =>
      refine ⟨t, by simp [step, ht], ?_⟩
      simpa [step, ht] using hp
  · exact ⟨Thread.walking [[(p, fs p)]], rfl, fun _ => rfl⟩

/-- C1, as the code has it: for every directory tree at the single root `p` and every
policy with `Recursive` or `NamesOnly` set.  When every entry the walk reaches can be
inspected and every directory it reaches can be listed (the walk reaches everything
outside the directories named `.git` or `.plandex`, and those directories themselves),
`ParseInputPaths` succeeds (some schedule of its one goroutine reaches the end, and
whenever it returns it returns a list and no error), and the returned list holds, each
once and in the order of the walk, exactly the paths of the entries of the tree that
are outside every directory named `.git` or `.plandex` and are either not a directory
or, if `NamesOnly` is set, a directory (the root included) not itself so named; in
particular with `NamesOnly` unset no directory is returned.  Otherwise the call fails:
it returns, and whenever it returns it returns a nil list and the error with which the
walk ends. -/
theorem ParseInputPaths_single_root (fs : String → Node) (p : String)
    (params : LoadContextParams) (hpol : (params.Recursive || params.NamesOnly) = true) :
    ((fs p).walkable = true →
        (∃ sched l, ParseInputPaths fs [p] params sched = some (some l, none))
          ∧ ∀ sched r, ParseInputPaths fs [p] params sched = some r →
              ∃ l, r = (some l, none)
                ∧ l = (((fs p).entries p false).filter (Entry.included params)).map Entry.path
                ∧ ∀ x, x ∈ l ↔
                    ∃ e ∈ (fs p).entries p false, e.path = x ∧ e.insideSkipped = false
                      ∧ (e.isDir = false
                          ∨ (params.NamesOnly = true ∧ isSkipName e.name = false)))
      ∧ ((fs p).walkable = false →
          (∃ sched e, ParseInputPaths fs [p] params sched = some (none, some e))
            ∧ ∀ sched r, ParseInputPaths fs [p] params sched = some r →
                ∃ e, r = (none, some e) ∧ (WalkAlone fs params p).1 = some e) := by
  have hret : ∃ sched r, ParseInputPaths fs [p] params sched = some r := by
    obtain ⟨sched, hs⟩ := exists_complete params _ (startState fs [p]) (le_refl _)
    cases hr : ParseInputPaths fs [p] params sched with
    | none => simp [ParseInputPaths, hs] at hr; split at hr <;> cases hr
    | some r => exact ⟨sched, r, hr⟩
  constructor
  · intro hwalk
    have hw := WalkAlone_walkable fs params p hpol hwalk
    have key : ∀ sched r, ParseInputPaths fs [p] params sched = some r →
        ∃ l, r = (some l, none)
          ∧ l = (((fs p).entries p false).filter (Entry.included params)).map Entry.path := by
      intro sched r h
      obtain ⟨hall, hinv, f1, f2⟩ := ParseInputPaths_final fs [p] params sched r h
      have hnone : (run params sched (startState fs [p])).shared.firstErr = none := by
        cases hfe : (run params sched (startState fs [p])).shared.firstErr with
        | none => rfl
        | some e =>
          obtain ⟨q, hq, he⟩ := firstErr_is_walk_error fs [p] params _ hinv e hfe
          simp only [List.mem_singleton] at hq
          subst hq
          rw [hw] at he
          cases he
      refine ⟨_, f2 hnone, ?_⟩
      obtain ⟨t, ht, hord⟩ := single_root_order fs params p sched
      have hpend := pending_of_all_done params _ hall
      rw [ht] at hpend
      simp only [List.flatMap_cons, List.flatMap_nil, List.append_nil] at hpend
      have := hord hnone
      rw [hpend, List.append_nil, hw] at this
      exact this
    constructor
    · obtain ⟨sched, r, hr⟩ := hret
      obtain ⟨l, hl, _⟩ := key sched r hr
      exact ⟨sched, l, by rw [hr, hl]⟩
    · intro sched r h
      obtain ⟨l, hl, heq⟩ := key sched r h
      refine ⟨l, hl, heq, ?_⟩
      intro x
      rw [heq]
      simp only [List.mem_map, List.mem_filter, Entry.included, Bool.and_eq_true,
        Bool.not_eq_true', Bool.or_eq_true]
      constructor
      · rintro ⟨e, ⟨he, h1, h2⟩, hx⟩
        exact ⟨e, he, hx, h1, h2⟩
      · rintro ⟨e, he, hx, h1, h2⟩
        exact ⟨e, ⟨he, h1, h2⟩, hx⟩
  · intro hwalk
    obtain ⟨e0, he0⟩ := WalkAlone_not_walkable fs params p hwalk
    have key : ∀ sched r, ParseInputPaths fs [p] params sched = some r →
        ∃ e, r = (none, some e) ∧ (WalkAlone fs params p).1 = some e := by
      intro sched r h
      obtain ⟨hall, hinv, f1, _⟩ := ParseInputPaths_final fs [p] params sched r h
      have hne := firstErr_of_failing_root fs [p] params _ hinv hall p
        (List.mem_singleton.mpr rfl) (by rw [he0]; exact Option.some_ne_none _)
      cases hfe : (run params sched (startState fs [p])).shared.firstErr with
      | none => exact absurd hfe hne
      | some e =>
        obtain ⟨q, hq, he⟩ := firstErr_is_walk_error fs [p] params _ hinv e hfe
        simp only [List.mem_singleton] at hq
        subst hq
        exact ⟨e, f1 e hfe, he⟩
    constructor
    · obtain ⟨sched, r, hr⟩ := hret
      obtain ⟨e, he, _⟩ := key sched r hr
      exact ⟨sched, e, by rw [hr, he]⟩
    · exact key

/-- C1 on the sample project: `proj` holds `a.go`, a repository directory `.git` and
a subdirectory `sub` with `b.go`. -/
theorem ParseInputPaths_single_root_witness :
    ParseInputPaths sampleFS ["proj"] ⟨true, false⟩ (List.replicate 12 0)
        = some (some ["proj/a.go", "proj/sub/b.go"], none)
      ∧ ParseInputPaths sampleFS ["proj"] ⟨false, true⟩ (List.replicate 12 0)
        = some (some ["proj", "proj/a.go", "proj/sub", "proj/sub/b.go"], none)
      ∧ ((∃ sched l, ParseInputPaths sampleFS ["proj"] ⟨true, false⟩ sched
            = some (some l, none))
          ∧ ∀ sched r, ParseInputPaths sampleFS ["proj"] ⟨true, false⟩ sched = some r →
              ∃ l, r = (some l, none)
                ∧ l = (((sampleFS "proj").entries "proj" false).filter
                    (Entry.included ⟨true, false⟩)).map Entry.path
                ∧ ∀ x, x ∈ l ↔
                    ∃ e ∈ (sampleFS "proj").entries "proj" false,
                      e.path = x ∧ e.insideSkipped = false
                        ∧ (e.isDir = false
                            ∨ ((⟨true, false⟩ : LoadContextParams).NamesOnly = true
                                ∧ isSkipName e.name = false))) :=
  ⟨by decide, by decide,
    (ParseInputPaths_single_root sampleFS "proj" ⟨true, false⟩ (by decide)).1 (by decide)⟩

/-- C1 fails as stated.  The directory `data` holds the file `a.txt` and a
subdirectory `locked` that cannot be listed.  With `Recursive` set the claim has the
call succeed with the one path `data/a.txt`; the callback is handed the error of the
listing and returns it, and the call returns a nil list and that error, under every
schedule.  Likewise for a root directory named `.git` that cannot be listed. -/
theorem ParseInputPaths_unlistable_directory_fails :
    ParseInputPaths lockedFS ["data"] ⟨true, false⟩ (List.replicate 8 0)
        = some (none, some "open data/locked: permission denied")
      ∧ (∀ sched r, ParseInputPaths lockedFS ["data"] ⟨true, false⟩ sched = some r →
          r = (none, some "open data/locked: permission denied"))
      ∧ ParseInputPaths lockedFS [".git"] ⟨true, false⟩ (List.replicate 8 0)
        = some (none, some "open .git: permission denied") := by
  refine ⟨by decide, ?_, by decide⟩
  intro sched r h
  obtain ⟨hall, hinv, f1, _⟩ := ParseInputPaths_final lockedFS ["data"] ⟨true, false⟩ sched r h
  have hw : (WalkAlone lockedFS ⟨true, false⟩ "data").1
      = some "open data/locked: permission denied" := by decide
  have hne := firstErr_of_failing_root lockedFS ["data"] ⟨true, false⟩ _ hinv hall "data"
    (List.mem_singleton.mpr rfl) (by rw [hw]; exact Option.some_ne_none _)
  cases hfe : (run ⟨true, false⟩ sched (startState lockedFS ["data"])).shared.firstErr with
  | none => exact absurd hfe hne
  | some e =>
    obtain ⟨q, hq, he⟩ := firstErr_is_walk_error lockedFS ["data"] ⟨true, false⟩ _ hinv e hfe
    simp only [List.mem_singleton] at hq
    subst hq
    rw [hw] at he
    simp only [Option.some.injEq] at he
    rw [he]
    exact f1 e hfe

theorem run_append (params : LoadContextParams) (s1 s2 : List Nat) (st : State) :
    run params (s1 ++ s2) st = run params s2 (run params s1 st) := by
  simp [run, List.foldl_append]

/-- C2: every interleaving of the per-root walks, however far it has got, can be run to
the end, where `ParseInputPaths` returns.  And under every interleaving, once it
returns: every goroutine is done; if the walk of at least one root ended with an
error, the result is a nil list together with an error, which is the error with which
one of the walks ended and also the error with which the walk of one of the roots ends
when taken by itself; a list is returned only when no walk ended with an error; and a
root whose walk fails by itself (a missing root, a lower-level error, a directory met
without `Recursive` or `NamesOnly`) makes the call return a nil list and an error; so
does in particular a root that is missing, that is a directory that cannot be listed,
or that is a directory other than `.git` and `.plandex` when neither flag is set. -/
theorem ParseInputPaths_error_wins (fs : String → Node) (paths : List String)
    (params : LoadContextParams) (sched : List Nat) :
    (∃ ext, ParseInputPaths fs paths params (sched ++ ext) ≠ none)
      ∧ ∀ r : Option (List String) × Option String,
          ParseInputPaths fs paths params sched = some r →
          (∀ j, j < paths.length →
              ∃ e, (run params sched (startState fs paths)).threads[j]? = some (Thread.done e))
            ∧ ((∃ (j : Nat) (e : String),
                  (run params sched (startState fs paths)).threads[j]?
                    = some (Thread.done (some e))) →
                r.1 = none
                  ∧ ∃ e : String, r.2 = some e
                      ∧ (∃ j : Nat, (run params sched (startState fs paths)).threads[j]?
                            = some (Thread.done (some e)))
                      ∧ ∃ p ∈ paths, (WalkAlone fs params p).1 = some e)
            ∧ ((∃ l, r.1 = some l) →
                r.2 = none
                  ∧ ∀ (j : Nat) (e : String),
                      (run params sched (startState fs paths)).threads[j]?
                        ≠ some (Thread.done (some e)))
            ∧ ((∃ p ∈ paths, (WalkAlone fs params p).1 ≠ none) →
                r.1 = none ∧ r.2 ≠ none)
            ∧ ((∃ p ∈ paths,
                  (∃ name err, fs p = .lstatFail name err)
                    ∨ (∃ name err, fs p = .unreadableDir name err)
                    ∨ (∃ name cs, fs p = .dir name cs ∧ isSkipName name = false
                        ∧ params.Recursive = false ∧ params.NamesOnly = false)) →
                r.1 = none ∧ r.2 ≠ none) := by
  constructor
  · obtain ⟨ext, hext⟩ :=
      exists_complete params _ (run params sched (startState fs paths)) (le_refl _)
    refine ⟨ext, ?_⟩
    rw [← run_append] at hext
    simp only [ParseInputPaths, hext, if_true]
    split <;> simp
  intro r h
  obtain ⟨hall, hinv, f1, f2⟩ := ParseInputPaths_final fs paths params sched r h
  have hinv2 := hinv
  obtain ⟨i0, i1, i2, i3, i4, i5⟩ := hinv
  have herr : ∀ e, (run params sched (startState fs paths)).shared.firstErr = some e →
      r.1 = none
        ∧ ∃ e : String, r.2 = some e
            ∧ (∃ j : Nat, (run params sched (startState fs paths)).threads[j]?
                  = some (Thread.done (some e)))
            ∧ ∃ p ∈ paths, (WalkAlone fs params p).1 = some e := by
    intro e he
    rw [f1 e he]
    exact ⟨rfl, e, rfl, i1 e he, firstErr_is_walk_error fs paths params _ hinv2 e he⟩
  have hfail : (∃ p ∈ paths, (WalkAlone fs params p).1 ≠ none) → r.1 = none ∧ r.2 ≠ none := by
    rintro ⟨p, hp, hfail⟩
    have hne := firstErr_of_failing_root fs paths params _ hinv2 hall p hp hfail
    cases hfe : (run params sched (startState fs paths)).shared.firstErr with
    | none => exact absurd hfe hne
    | some e1 =>
      rw [f1 e1 hfe]
      exact ⟨rfl, by simp⟩
  refine ⟨?_, ?_, ?_, hfail, ?_⟩
  rotate_left 3
  · rintro ⟨p, hp, hcause⟩
    apply hfail
    refine ⟨p, hp, ?_⟩
    rcases hcause with ⟨name, err, hfs⟩ | ⟨name, err, hfs⟩ | ⟨name, cs, hfs, hskip, hR, hN⟩
    · simp [WalkAlone, walkAloneStack, walkAloneFrame, walkAlone, visit, walkFn, hfs]
    · simp [WalkAlone, walkAloneStack, walkAloneFrame, walkAlone, visit, walkFn, hfs]
    · simp only [isSkipName] at hskip
      simp [WalkAlone, walkAloneStack, walkAloneFrame, walkAlone, visit, walkFn, hfs, hskip,
        hR, hN]
  · intro j hj
    have hjl : j < (run params sched (startState fs paths)).threads.length := by
      rw [i0]; simpa [startState] using hj
    obtain ⟨e, he⟩ := done_of_all_done _ hall j _ (List.getElem?_eq_getElem hjl)
    exact ⟨e, by rw [List.getElem?_eq_getElem hjl, he]⟩
  · rintro ⟨j, e, hj⟩
    cases hfe : (run params sched (startState fs paths)).shared.firstErr with
    | none => exact absurd hj (i2 hfe j e)
    | some e1 => exact herr e1 hfe
  · rintro ⟨l, hl⟩
    cases hfe : (run params sched (startState fs paths)).shared.firstErr with
    | none =>
      rw [f2 hfe]
      exact ⟨rfl, i2 hfe⟩
    | some e1 =>
      rw [f1 e1 hfe] at hl
      cases hl

/-- C2 on an example: the root `proj` walks without error, the root `nope` is missing;
whichever of the two goroutines runs first, the result is the error alone. -/
theorem ParseInputPaths_error_wins_witness :
    ParseInputPaths sampleFS ["proj", "nope"] ⟨true, false⟩ (List.replicate 12 0 ++ [1, 1])
        = some (none, some "lstat: no such file or directory")
      ∧ ParseInputPaths sampleFS ["proj", "nope"] ⟨true, false⟩ ([1, 1] ++ List.replicate 12 0)
        = some (none, some "lstat: no such file or directory")
      ∧ (WalkAlone sampleFS ⟨true, false⟩ "proj").1 = none
      ∧ (WalkAlone sampleFS ⟨true, false⟩ "nope").1 = some "lstat: no such file or directory"
      ∧ ((none : Option (List String)), some "lstat: no such file or directory").1 = none
      ∧ ((none : Option (List String)), some "lstat: no such file or directory").2 ≠ none :=
  ⟨by decide, by decide, by decide, by decide,
    ((ParseInputPaths_error_wins sampleFS ["proj", "nope"] ⟨true, false⟩
      (List.replicate 12 0 ++ [1, 1])).2 (none, some "lstat: no such file or directory")
      (by decide)).2.2.2.1 ⟨"nope", by simp, by decide⟩⟩

/-- C3, as the code has it: for a root that is a directory whose listing can be read,
with neither `Recursive` nor `NamesOnly` set, `ParseInputPaths` returns on some
schedule, and whenever it returns: if the directory is named `.git` or `.plandex` it is
skipped and the result is the empty list without error; otherwise the result is the nil
list with the error `cannot process directory <path>: --recursive or --tree flag not
set` naming the root path. -/
theorem ParseInputPaths_directory_without_flags (fs : String → Node) (p name : String)
    (cs : List Node) (params : LoadContextParams) (hroot : fs p = .dir name cs)
    (hR : params.Recursive = false) (hN : params.NamesOnly = false) :
    (∃ sched, ParseInputPaths fs [p] params sched ≠ none)
      ∧ ∀ sched r, ParseInputPaths fs [p] params sched = some r →
          r = (if isSkipName name then (some [], none)
               else (none, some ("cannot process directory " ++ p
                      ++ ": --recursive or --tree flag not set"))) := by
  constructor
  · obtain ⟨sched, hs⟩ := exists_complete params _ (startState fs [p]) (le_refl _)
    refine ⟨sched, ?_⟩
    simp only [ParseInputPaths, hs, if_true]
    split <;> simp
  · intro sched r h
    obtain ⟨hall, hinv, f1, f2⟩ := ParseInputPaths_final fs [p] params sched r h
    by_cases hskip : isSkipName name = true
    · have hw : WalkAlone fs params p = (none, []) := by
        simp only [isSkipName] at hskip
        simp [WalkAlone, walkAloneStack, walkAloneFrame, walkAlone, visit, walkFn, hroot, hskip,
          Node.isDir]
      have hnone : (run params sched (startState fs [p])).shared.firstErr = none := by
        cases hfe : (run params sched (startState fs [p])).shared.firstErr with
        | none => rfl
        | some e =>
          obtain ⟨q, hq, he⟩ := firstErr_is_walk_error fs [p] params _ hinv e hfe
          simp only [List.mem_singleton] at hq
          subst hq
          rw [hw] at he
          cases he
      have hperm := resPaths_perm fs [p] params _ hinv hall hnone
      simp only [List.flatMap_cons, List.flatMap_nil, hw, List.append_nil] at hperm
      rw [f2 hnone, List.Perm.eq_nil hperm, if_pos hskip]
    · have hskip2 : isSkipName name = false := by simpa using hskip
      have hw : (WalkAlone fs params p).1
          = some ("cannot process directory " ++ p ++ ": --recursive or --tree flag not set") := by
        simp only [isSkipName] at hskip2
        simp [WalkAlone, walkAloneStack, walkAloneFrame, walkAlone, visit, walkFn, hroot,
          hskip2, hR, hN]
      have hne := firstErr_of_failing_root fs [p] params _ hinv hall p (by simp)
        (by rw [hw]; simp)
      cases hfe : (run params sched (startState fs [p])).shared.firstErr with
      | none => exact absurd hfe hne
      | some e =>
        obtain ⟨q, hq, he⟩ := firstErr_is_walk_error fs [p] params _ hinv e hfe
        simp only [List.mem_singleton] at hq
        subst hq
        rw [hw] at he
        simp only [Option.some.injEq] at he
        rw [f1 e hfe, if_neg hskip, he]

/-- C3 on the sample project: the directory `proj` without flags gives the
configuration error naming `proj`. -/
theorem ParseInputPaths_directory_without_flags_witness :
    ParseInputPaths sampleFS ["proj"] ⟨false, false⟩ [0, 0]
        = some (none, some "cannot process directory proj: --recursive or --tree flag not set")
      ∧ ((∃ sched, ParseInputPaths sampleFS ["proj"] ⟨false, false⟩ sched ≠ none)
          ∧ ∀ sched r, ParseInputPaths sampleFS ["proj"] ⟨false, false⟩ sched = some r →
              r = (if isSkipName "proj" then (some [], none)
                   else (none, some ("cannot process directory " ++ "proj"
                          ++ ": --recursive or --tree flag not set")))) :=
  ⟨by decide,
    ParseInputPaths_directory_without_flags sampleFS "proj" "proj"
      [.file "a.go", .dir ".git" [.file "HEAD"], .dir "sub" [.file "b.go"]] ⟨false, false⟩
      rfl rfl rfl⟩

/-- C3 fails as stated: a root that is a directory named `.git`, with neither flag set,
is skipped; the call succeeds with an empty list and no error. -/
theorem ParseInputPaths_skipped_root_succeeds :
    (sampleFS ".git").isDir = true
      ∧ ParseInputPaths sampleFS [".git"] ⟨false, false⟩ [0, 0, 0, 0] = some (some [], none) := by
  decide

theorem count_le_count_flatMap (f : String → List String) (p x : String)
    (hx : x ∈ f p) : ∀ paths : List String, paths.count p ≤ (paths.flatMap f).count x
  | [] => by simp
  | q :: qs => by
    have ih := count_le_count_flatMap f p x hx qs
    rw [List.flatMap_cons, List.count_append, List.count_cons]
    by_cases hq : q = p
    · subst hq
      have : 0 < (f q).count x := List.count_pos_iff.mpr hx
      simp only [beq_self_eq_true, if_true]
      omega
    · have hb : (q == p) = false := by simpa using hq
      simp only [hb, Bool.false_eq_true, if_false]
      omega

/-- C4, as the code has it: nothing is deduplicated.  The list returned by a successful
call is made up of what the walk of each root argument records by itself, each
occurrence of a root contributing its own copy; so it is free of duplicates exactly
when those per-root lists, put together, are; and a path that the walk of a root
records occurs in the result at least as many times as that root is named. -/
theorem ParseInputPaths_no_dedup (fs : String → Node) (paths : List String)
    (params : LoadContextParams) (sched : List Nat) (l : List String)
    (h : ParseInputPaths fs paths params sched = some (some l, none)) :
    l.Perm (paths.flatMap (fun p => (WalkAlone fs params p).2))
      ∧ (l.Nodup ↔ (paths.flatMap (fun p => (WalkAlone fs params p).2)).Nodup)
      ∧ (∀ p x, x ∈ (WalkAlone fs params p).2 → paths.count p ≤ l.count x) := by
  obtain ⟨hall, hinv, f1, f2⟩ := ParseInputPaths_final fs paths params sched _ h
  have hnone : (run params sched (startState fs paths)).shared.firstErr = none := by
    cases hfe : (run params sched (startState fs paths)).shared.firstErr with
    | none => rfl
    | some e =>
      have := f1 e hfe
      simp at this
  have hl : l = (run params sched (startState fs paths)).shared.resPaths := by
    have := f2 hnone
    simp only [Prod.mk.injEq, Option.some.injEq, and_true] at this
    exact this
  have hperm := resPaths_perm fs paths params _ hinv hall hnone
  rw [← hl] at hperm
  refine ⟨hperm, hperm.nodup_iff, ?_⟩
  intro p x hx
  rw [hperm.count_eq x]
  exact count_le_count_flatMap (fun p => (WalkAlone fs params p).2) p x hx paths

/-- C4 on an example: the roots `proj` and `f` have nothing in common and the result
has no duplicate. -/
theorem ParseInputPaths_no_dedup_witness :
    ParseInputPaths sampleFS ["proj", "f"] ⟨true, false⟩ ([1, 0, 1, 1, 1] ++ List.replicate 11 0)
        = some (some ["f", "proj/a.go", "proj/sub/b.go"], none)
      ∧ ["f", "proj/a.go", "proj/sub/b.go"].Perm
          (["proj", "f"].flatMap (fun p => (WalkAlone sampleFS ⟨true, false⟩ p).2))
      ∧ (["f", "proj/a.go", "proj/sub/b.go"].Nodup ↔
          (["proj", "f"].flatMap (fun p => (WalkAlone sampleFS ⟨true, false⟩ p).2)).Nodup)
      ∧ (∀ p x, x ∈ (WalkAlone sampleFS ⟨true, false⟩ p).2 →
          ["proj", "f"].count p ≤ ["f", "proj/a.go", "proj/sub/b.go"].count x) :=
  ⟨by decide,
    ParseInputPaths_no_dedup sampleFS ["proj", "f"] ⟨true, false⟩
      ([1, 0, 1, 1, 1] ++ List.replicate 11 0) ["f", "proj/a.go", "proj/sub/b.go"] (by decide)⟩

/-- C4 fails as stated: a repeated root is walked twice and its path is returned twice;
likewise a directory given together with a file beneath it. -/
theorem ParseInputPaths_duplicates :
    ParseInputPaths sampleFS ["f", "f"] ⟨false, false⟩ [0, 1, 0, 1, 0, 1, 0, 1]
        = some (some ["f", "f"], none)
      ∧ ¬ ["f", "f"].Nodup
      ∧ ParseInputPaths sampleFS ["proj", "proj/a.go"] ⟨true, false⟩
          (List.replicate 12 0 ++ [1, 1, 1, 1])
        = some (some ["proj/a.go", "proj/sub/b.go", "proj/a.go"], none)
      ∧ ¬ ["proj/a.go", "proj/sub/b.go", "proj/a.go"].Nodup := by
  decide

/-! ## `CopyDir` -/

mutual
/-- A copy that succeeds has met no failure in the source tree. -/
theorem CopyDir_sound :
    ∀ (src : SrcNode) (d : List String) (fs fs1 : DstFS),
      CopyDir src d fs = (none, fs1) → src.sound = true
  | .file _ _, _, _, _, h => by simp [CopyDir] at h
  | .unopenable _ _, _, _, _, h => by simp [CopyDir] at h
  | .truncated _ _ _, _, _, _, h => by simp [CopyDir] at h
  | .unreadableDir _ _, _, _, _, h => by simp [CopyDir] at h
  | .dir _ entries, d, fs, fs1, h => by
    simp only [CopyDir] at h
    simp only [SrcNode.sound]
    exact copyEntries_sound entries d fs fs1 h
theorem copyEntries_sound :
    ∀ (entries : List SrcNode) (d : List String) (fs fs1 : DstFS),
      CopyDir.copyEntries entries d fs = (none, fs1) → SrcNode.sound.soundList entries = true
  | [], _, _, _, _ => rfl
  | entry :: rest, d, fs, fs1, h => by
    simp only [CopyDir.copyEntries] at h
    simp only [SrcNode.sound.soundList, Bool.and_eq_true]
    by_cases hd : entry.isDir = true
    · simp only [hd, if_true] at h
      rcases hc : CopyDir entry (d ++ [entry.name]) fs with ⟨e, fs2⟩
      rw [hc] at h
      cases e with
      | some e => simp at h
      | none =>
        simp only at h
        exact ⟨CopyDir_sound entry _ fs fs2 hc, copyEntries_sound rest d fs2 fs1 h⟩
    · simp only [hd, Bool.false_eq_true, if_false] at h
      rcases hc : CopyFile entry (d ++ [entry.name]) fs with ⟨e, fs2⟩
      rw [hc] at h
      cases e with
      | some e => simp at h
      | none =>
        simp only at h
        refine ⟨?_, copyEntries_sound rest d fs2 fs1 h⟩
        cases entry with
        | file n c => rfl
        | unopenable n e => simp [CopyFile] at hc
        | truncated n w e =>
          simp only [CopyFile] at hc
          split at hc
          · simp at hc
          · split at hc <;> simp at hc
        | dir n cs => simp [SrcNode.isDir] at hd
        | unreadableDir n e => simp [SrcNode.isDir] at hd
end

theorem copyFiles_append (A B : List (List String × String)) (fs : DstFS) :
    copyFiles (A ++ B) fs
      = (match copyFiles A fs with
         | (some err, fs1) => (some err, fs1)
         | (none, fs1) => copyFiles B fs1) := by
  induction A generalizing fs with
  | nil => simp [copyFiles]
  | cons x A ih =>
    simp only [List.cons_append, copyFiles]
    rcases hc : copyOne x fs with ⟨e, fs2⟩
    cases e with
    | some e => simp
    | none => simp [ih]

mutual
/-- On a source tree without failures `CopyDir` is the copy of its files one after the
other, each to the destination directory followed by its relative path. -/
theorem CopyDir_eq_copyFiles :
    ∀ (src : SrcNode) (d : List String) (fs : DstFS), src.isDir = true → src.sound = true →
      CopyDir src d fs = copyFiles ((srcFiles src).map (fun x => (d ++ x.1, x.2))) fs
  | .file _ _, _, _, hd, _ => by simp [SrcNode.isDir] at hd
  | .unopenable _ _, _, _, _, h => by simp [SrcNode.sound] at h
  | .truncated _ _ _, _, _, _, h => by simp [SrcNode.sound] at h
  | .unreadableDir _ _, _, _, _, h => by simp [SrcNode.sound] at h
  | .dir _ entries, d, fs, _, h => by
    simp only [SrcNode.sound] at h
    simp only [CopyDir, srcFiles]
    exact copyEntries_eq_copyFiles entries d fs h
theorem copyEntries_eq_copyFiles :
    ∀ (entries : List SrcNode) (d : List String) (fs : DstFS),
      SrcNode.sound.soundList entries = true →
      CopyDir.copyEntries entries d fs
        = copyFiles ((srcFiles.srcFilesList entries).map (fun x => (d ++ x.1, x.2))) fs
  | [], _, _, _ => by simp [CopyDir.copyEntries, srcFiles.srcFilesList, copyFiles]
  | .file name content :: rest, d, fs, h => by
    simp only [SrcNode.sound.soundList, Bool.and_eq_true] at h
    simp only [CopyDir.copyEntries, SrcNode.isDir, Bool.false_eq_true, if_false,
      srcFiles.srcFilesList, List.map_cons, copyFiles, copyOne, SrcNode.name]
    have hf : CopyFile (.file name content) (d ++ [name]) fs
        = CopyFile (.file "" content) (d ++ [name]) fs := by
      simp [CopyFile]
    rw [hf]
    generalize CopyFile (.file "" content) (d ++ [name]) fs = r
    obtain ⟨e, fs2⟩ := r
    cases e with
    | some e => rfl
    | none => exact copyEntries_eq_copyFiles rest d fs2 h.2
  | .dir name entries :: rest, d, fs, h => by
    simp only [SrcNode.sound.soundList, Bool.and_eq_true] at h
    have h1 := CopyDir_eq_copyFiles (.dir name entries) (d ++ [name]) fs rfl h.1
    simp only [CopyDir.copyEntries, SrcNode.isDir, if_true, srcFiles.srcFilesList,
      List.map_append, List.map_map, SrcNode.name, h1, srcFiles, copyFiles_append]
    have hm : (List.map ((fun x => (d ++ x.1, x.2)) ∘ fun x => (name :: x.1, x.2))
          (srcFiles.srcFilesList entries))
        = List.map (fun x => (d ++ [name] ++ x.1, x.2)) (srcFiles.srcFilesList entries) := by
      apply List.map_congr_left
      intro x _
      simp
    rw [hm]
    generalize copyFiles (List.map (fun x => (d ++ [name] ++ x.1, x.2))
        (srcFiles.srcFilesList entries)) fs = r
    obtain ⟨e, fs2⟩ := r
    cases e with
    | some e => rfl
    | none => exact copyEntries_eq_copyFiles rest d fs2 h.2
  | .unopenable _ _ :: _, _, _, h => by simp [SrcNode.sound.soundList, SrcNode.sound] at h
  | .truncated _ _ _ :: _, _, _, h => by simp [SrcNode.sound.soundList, SrcNode.sound] at h
  | .unreadableDir _ _ :: _, _, _, h => by simp [SrcNode.sound.soundList, SrcNode.sound] at h
end

/-- A successful `MkdirAll` changes the filesystem only by making directories where
there was nothing. -/
theorem mkdirAllUpTo_frame (path : List String) :
    ∀ (n : Nat) (fs fs1 : DstFS), mkdirAllUpTo path n fs = (none, fs1) →
      ∀ q, fs1 q = fs q ∨ (fs q = none ∧ fs1 q = some .dir) := by
  intro n
  induction n with
  | zero =>
    intro fs fs1 h q
    simp only [mkdirAllUpTo, Prod.mk.injEq, true_and] at h
    subst h
    exact Or.inl rfl
  | succ n ih =>
    intro fs fs1 h q
    simp only [mkdirAllUpTo] at h
    rcases hp : fs (path.take (n + 1)) with _ | (_ | c)
    · rw [hp] at h
      simp only at h
      rcases hm : mkdirAllUpTo path n fs with ⟨e, fs2⟩
      rw [hm] at h
      cases e with
      | some e => simp at h
      | none =>
        simp only [osMkdir] at h
        rcases hp2 : fs2 (path.take (n + 1)) with _ | x
        · rw [hp2] at h
          simp only at h
          rcases hpar : fs2 (path.take (n + 1)).dropLast with _ | (_ | c)
          · rw [hpar] at h; simp at h
          · rw [hpar] at h
            simp only [Prod.mk.injEq, true_and] at h
            subst h
            by_cases hq : q = path.take (n + 1)
            · subst hq
              right
              refine ⟨?_, by simp [DstFS.set]⟩
              rcases ih fs fs2 hm (path.take (n + 1)) with h1 | h1
              · rw [← h1, hp2]
              · exact h1.1
            · simp only [DstFS.set, hq, if_false]
              exact ih fs fs2 hm q
          · rw [hpar] at h; simp at h
        · rw [hp2] at h; simp at h
    · rw [hp] at h
      simp only [Prod.mk.injEq, true_and] at h
      subst h
      exact Or.inl rfl
    · rw [hp] at h
      simp at h

/-- What a successful copy of one file does: the file is at its path with its bytes,
its parent is a directory, and everything else is as before except for directories
made where there was nothing; the path did not hold a directory. -/
theorem copyOne_ok (p : List String) (c : String) (fs fs1 : DstFS)
    (h : copyOne (p, c) fs = (none, fs1)) :
    fs1 p = some (.file c) ∧ fs1 p.dropLast = some .dir
      ∧ (∀ q, q ≠ p → fs1 q = fs q ∨ (fs q = none ∧ fs1 q = some .dir))
      ∧ fs p ≠ some .dir := by
  simp only [copyOne, CopyFile, osMkdirAll] at h
  rcases hm : mkdirAllUpTo p.dropLast p.dropLast.length fs with ⟨e, fsM⟩
  rw [hm] at h
  cases e with
  | some e => simp at h
  | none =>
    have hframe := mkdirAllUpTo_frame _ _ _ _ hm
    simp only [osCreate] at h
    have hnd : fsM p ≠ some .dir := by
      intro hd
      rw [hd] at h
      simp at h
    have hcr : (match fsM p.dropLast with
        | some .dir => ((none : Option String), fsM.set p (.file ""))
        | some (.file _) => (some "open: not a directory", fsM)
        | none => (some "open: no such file or directory", fsM))
        = (match fsM p with
        | some .dir => (some "open: is a directory", fsM)
        | _ =>
          match fsM p.dropLast with
          | some .dir => (none, fsM.set p (.file ""))
          | some (.file _) => (some "open: not a directory", fsM)
          | none => (some "open: no such file or directory", fsM)) := by
      rcases hp : fsM p with _ | (_ | x)
      · rfl
      · exact absurd hp hnd
      · rfl
    rw [← hcr] at h
    rcases hpar : fsM p.dropLast with _ | (_ | x)
    · rw [hpar] at h; simp at h
    · rw [hpar] at h
      simp only [Prod.mk.injEq, true_and] at h
      subst h
      have hpne : p.dropLast ≠ p := by
        intro heq
        rw [heq] at hpar
        exact hnd hpar
      refine ⟨by simp [DstFS.set], ?_, ?_, ?_⟩
      · simp only [DstFS.set, hpne, if_false]
        exact hpar
      · intro q hq
        simp only [DstFS.set, hq, if_false]
        exact hframe q
      · intro hd
        rcases hframe p with h1 | h1
        · rw [h1] at hnd; exact hnd hd
        · rw [h1.1] at hd; cases hd
    · rw [hpar] at h; simp at h

/-- What a successful copy of a list of files does. -/
theorem copyFiles_ok :
    ∀ (F : List (List String × String)) (fs fs1 : DstFS), copyFiles F fs = (none, fs1) →
      (∀ q x, fs1 q = some (.file x) → fs q = some (.file x) ∨ (q, x) ∈ F)
        ∧ (∀ q, fs q = some .dir → fs1 q = some .dir)
        ∧ (∀ q x, fs q = some (.file x) → q ∉ F.map Prod.fst → fs1 q = some (.file x))
        ∧ ((F.map Prod.fst).Nodup →
            ∀ y ∈ F, fs1 y.1 = some (.file y.2) ∧ fs1 y.1.dropLast = some .dir) := by
  intro F
  induction F with
  | nil =>
    intro fs fs1 h
    simp only [copyFiles, Prod.mk.injEq, true_and] at h
    subst h
    simp
  | cons y F ih =>
    intro fs fs1 h
    obtain ⟨p, c⟩ := y
    simp only [copyFiles] at h
    rcases hc : copyOne (p, c) fs with ⟨e, fs2⟩
    rw [hc] at h
    cases e with
    | some e => simp at h
    | none =>
      simp only at h
      obtain ⟨o1, o2, o3, o4⟩ := copyOne_ok p c fs fs2 hc
      obtain ⟨a, d, k, b⟩ := ih fs2 fs1 h
      have dirKept : ∀ q, fs q = some .dir → fs2 q = some .dir := by
        intro q hq
        have hqp : q ≠ p := by
          intro heq; subst heq; exact o4 hq
        rcases o3 q hqp with h1 | h1
        · rw [h1, hq]
        · rw [h1.1] at hq; cases hq
      refine ⟨?_, ?_, ?_, ?_⟩
      · intro q x hq
        rcases a q x hq with h1 | h1
        · by_cases hqp : q = p
          · subst hqp
            rw [o1] at h1
            simp only [Option.some.injEq, DstEntry.file.injEq] at h1
            subst h1
            exact Or.inr (by simp)
          · rcases o3 q hqp with h2 | h2
            · left; rw [← h2, h1]
            · rw [h2.2] at h1; cases h1
        · exact Or.inr (by simp [h1])
      · intro q hq
        exact d q (dirKept q hq)
      · intro q x hq hnot
        simp only [List.map_cons, List.mem_cons, not_or] at hnot
        apply k q x _ hnot.2
        rcases o3 q hnot.1 with h2 | h2
        · rw [h2, hq]
        · rw [h2.1] at hq; cases hq
      · intro hnd z hz
        simp only [List.map_cons, List.nodup_cons] at hnd
        rcases List.mem_cons.mp hz with hz | hz
        · subst hz
          exact ⟨k p c o1 hnd.1, d _ o2⟩
        · exact b hnd.2 z hz

/-- Copying files that are already there, with their parents, changes nothing. -/
theorem copyFiles_again :
    ∀ (F : List (List String × String)) (fs : DstFS),
      (∀ y ∈ F, fs y.1 = some (.file y.2) ∧ fs y.1.dropLast = some .dir) →
      copyFiles F fs = (none, fs) := by
  intro F
  induction F with
  | nil => intro fs _; rfl
  | cons y F ih =>
    intro fs h
    obtain ⟨p, c⟩ := y
    obtain ⟨h1, h2⟩ := h (p, c) (by simp)
    simp only at h1 h2
    have hmk : mkdirAllUpTo p.dropLast p.dropLast.length fs = (none, fs) := by
      cases hl : p.dropLast.length with
      | zero => rfl
      | succ n =>
        have : p.dropLast.take (n + 1) = p.dropLast := by
          rw [← hl]; exact List.take_length _
        simp [mkdirAllUpTo, this, h2]
    have hset : (fs.set p (.file "")).set p (.file c) = fs := by
      funext q
      by_cases hq : q = p
      · subst hq; simp [DstFS.set, h1]
      · simp [DstFS.set, hq]
    have hone : copyOne (p, c) fs = (none, fs) := by
      simp only [copyOne, CopyFile, osMkdirAll, hmk, osCreate, h1, h2, hset]
    simp only [copyFiles, hone]
    exact ih fs (fun z hz => h z (by simp [hz]))

/-- C8: for a source directory whose files have pairwise distinct relative paths, and a
destination that does not overlap it: when `CopyDir(src, dst)` succeeds, starting from
a destination that is absent or empty, the files below `dst` are exactly the files of
`src`, at the same relative paths and with the same bytes; and running `CopyDir(src,
dst)` once more succeeds and leaves the destination filesystem as it was after the
first run.  Existing files are overwritten: whatever the destination held before a
successful run, after it every file of `src` is at its relative path below `dst` with
the bytes of the source, and at every other path there is a file exactly when the same
file was there before (nothing else is changed into a file, removed or duplicated). -/
theorem CopyDir_mirrors (src : SrcNode) (dstDir : List String) (fs0 fs1 : DstFS)
    (hdistinct : ((srcFiles src).map Prod.fst).Nodup)
    (hcopy : CopyDir src dstDir fs0 = (none, fs1)) :
    ((∀ q, q ≠ [] → fs0 (dstDir ++ q) = none) → (∀ c, fs0 dstDir ≠ some (.file c)) →
        ∀ q c, fs1 (dstDir ++ q) = some (.file c) ↔ (q, c) ∈ srcFiles src)
      ∧ CopyDir src dstDir fs1 = (none, fs1)
      ∧ (∀ q c, (q, c) ∈ srcFiles src → fs1 (dstDir ++ q) = some (.file c))
      ∧ (∀ p x, (∀ q c, (q, c) ∈ srcFiles src → p ≠ dstDir ++ q) →
          (fs1 p = some (.file x) ↔ fs0 p = some (.file x))) := by
  have hsound := CopyDir_sound src dstDir fs0 fs1 hcopy
  have hdir : src.isDir = true := by
    cases src <;> simp [CopyDir, SrcNode.isDir, SrcNode.sound] at hcopy hsound ⊢
  have hflat := CopyDir_eq_copyFiles src dstDir
  rw [hflat fs0 hdir hsound] at hcopy
  obtain ⟨a, _, k, b⟩ := copyFiles_ok _ fs0 fs1 hcopy
  have hnd : (((srcFiles src).map (fun x => (dstDir ++ x.1, x.2))).map Prod.fst).Nodup := by
    rw [List.map_map]
    have : (Prod.fst ∘ fun x : List String × String => (dstDir ++ x.1, x.2))
        = (fun q => dstDir ++ q) ∘ Prod.fst := by
      funext x; rfl
    rw [this, ← List.map_map]
    exact hdistinct.map (fun q1 q2 h => List.append_cancel_left h)
  have hb := b hnd
  refine ⟨?_, ?_, ?_, ?_⟩
  · intro hempty hnofile q c
    constructor
    · intro hq
      rcases a _ _ hq with h1 | h1
      · by_cases hqn : q = []
        · subst hqn
          rw [List.append_nil] at h1
          exact absurd h1 (hnofile c)
        · rw [hempty q hqn] at h1
          cases h1
      · simp only [List.mem_map, Prod.mk.injEq] at h1
        obtain ⟨y, hy, hy1, hy2⟩ := h1
        have : y.1 = q := List.append_cancel_left hy1
        rw [← this, ← hy2]
        exact hy
    · intro hq
      have := hb (dstDir ++ q, c) (List.mem_map.mpr ⟨(q, c), hq, rfl⟩)
      exact this.1
  · rw [hflat fs1 hdir hsound]
    exact copyFiles_again _ fs1 hb
  · intro q c hq
    exact (hb (dstDir ++ q, c) (List.mem_map.mpr ⟨(q, c), hq, rfl⟩)).1
  · intro p x hp
    constructor
    · intro h1
      rcases a p x h1 with h2 | h2
      · exact h2
      · simp only [List.mem_map, Prod.mk.injEq] at h2
        obtain ⟨y, hy, hy1, hy2⟩ := h2
        exact absurd hy1.symm (hp y.1 y.2 hy)
    · intro h0
      apply k p x h0
      simp only [List.mem_map, not_exists, not_and]
      rintro z ⟨y, hy, hyz⟩ hz
      rw [← hyz] at hz
      exact hp y.1 y.2 hy hz.symm

/-- C8 on an example: a source with the file `a`, the file `sub/b` and an empty
directory, copied to `dst` in a filesystem holding only the root; and copied to a
`dst` that already holds a file `a` with other bytes, which is overwritten, and a file
`keep`, which stays. -/
theorem CopyDir_mirrors_witness :
    (CopyDir sampleSrc ["dst"] emptyDst).1 = none
      ∧ (CopyDir sampleSrc ["dst"] emptyDst).2 ["dst", "a"] = some (.file "AAA")
      ∧ (CopyDir sampleSrc ["dst"] emptyDst).2 ["dst", "sub", "b"] = some (.file "BBB")
      ∧ srcFiles sampleSrc = [(["a"], "AAA"), (["sub", "b"], "BBB")]
      ∧ (∀ q c, (CopyDir sampleSrc ["dst"] emptyDst).2 (["dst"] ++ q) = some (.file c)
            ↔ (q, c) ∈ srcFiles sampleSrc)
      ∧ CopyDir sampleSrc ["dst"] (CopyDir sampleSrc ["dst"] emptyDst).2
          = (none, (CopyDir sampleSrc ["dst"] emptyDst).2)
      ∧ usedDst ["dst", "a"] = some (.file "OLD")
      ∧ (CopyDir sampleSrc ["dst"] usedDst).1 = none
      ∧ (CopyDir sampleSrc ["dst"] usedDst).2 ["dst", "a"] = some (.file "AAA")
      ∧ (CopyDir sampleSrc ["dst"] usedDst).2 ["dst", "keep"] = some (.file "KEPT")
      ∧ (∀ q c, (q, c) ∈ srcFiles sampleSrc →
          (CopyDir sampleSrc ["dst"] usedDst).2 (["dst"] ++ q) = some (.file c)) :=
  ⟨by decide, by decide, by decide, by simp [sampleSrc, srcFiles, srcFiles.srcFilesList],
    (CopyDir_mirrors sampleSrc ["dst"] emptyDst (CopyDir sampleSrc ["dst"] emptyDst).2
      (by simp [sampleSrc, srcFiles, srcFiles.srcFilesList]) (by
        have h : (CopyDir sampleSrc ["dst"] emptyDst).1 = none := by decide
        exact Prod.ext h rfl)).1
      (by intro q hq; simp [emptyDst]) (by intro c; simp [emptyDst]),
    (CopyDir_mirrors sampleSrc ["dst"] emptyDst (CopyDir sampleSrc ["dst"] emptyDst).2
      (by simp [sampleSrc, srcFiles, srcFiles.srcFilesList]) (by
        have h : (CopyDir sampleSrc ["dst"] emptyDst).1 = none := by decide
        exact Prod.ext h rfl)).2.1,
    by decide, by decide, by decide, by decide,
    (CopyDir_mirrors sampleSrc ["dst"] usedDst (CopyDir sampleSrc ["dst"] usedDst).2
      (by simp [sampleSrc, srcFiles, srcFiles.srcFilesList]) (by
        have h : (CopyDir sampleSrc ["dst"] usedDst).1 = none := by decide
        exact Prod.ext h rfl)).2.2.1⟩

end Plandex
